import Mathlib

/-!
Verification of the routing and batching control plane of the distributed
inference engine.  The definitions below are a shallow embedding of the
Python sources:

* consistent_hash.py : the ConsistentHash ring (add_node, remove_node,
  get_node, get_nodes), parameterized by the hash function H which the
  source instantiates with md5;
* gateway.py : Gateway.route_request (primary forward plus failover over
  the remaining ring members), with the transport forward abstracted as a
  function argument;
* batch_processor.py : BatchProcessor._process_batch (result delivery and
  metrics), the timed dispatch loop _processing_loop, and the interaction
  of process/stop with the loop.

Machine integers do not overflow in the modelled fragment (Python ints are
unbounded), so hashes and counters are plain naturals; the floating-point
running mean avg_batch_size is modelled exactly over the rationals.
-/

namespace DistInf

/-! ### consistent_hash.py -/

/-- Hash of the virtual key "{node}#{i}", consistent_hash.py line 22-23.
The hash function H abstracts ConsistentHash._hash (md5 of the utf-8
encoding, read as a 128-bit integer). -/
def hashVirtual (H : String → Nat) (node : String) (i : Nat) : Nat :=
  H (node ++ "#" ++ toString i)

/-- The V virtual-node entries contributed by one node, in the order the
source inserts them (i = 0, 1, ..., V-1). -/
def vEntries (H : String → Nat) (V : Nat) (node : String) : List (Nat × String) :=
  (List.range V).map (fun i => (hashVirtual H node i, node))

/-- The hash keys of the V virtual nodes of one node. -/
def vKeys (H : String → Nat) (V : Nat) (node : String) : List Nat :=
  (List.range V).map (hashVirtual H node)

/-- State of consistent_hash.py's ConsistentHash.  The Python dict
self.ring is modelled as an association list in insertion order with
unique keys (assignment to an existing key updates in place, a new key is
appended, exactly the dict semantics); self.nodes (a Python set) is
modelled as an insertion-ordered duplicate-free list. -/
@[ext]
structure ConsistentHash where
  virtualNodes : Nat
  ring : List (Nat × String)
  sortedKeys : List Nat
  nodes : List String
deriving Repr, DecidableEq

/-- Python dict assignment d[k] = v on an association list: update the
existing entry in place, else append. -/
def updateAssoc (l : List (Nat × String)) (k : Nat) (v : String) : List (Nat × String) :=
  if k ∈ l.map Prod.fst then
    l.map (fun p => if p.1 = k then (k, v) else p)
  else
    l ++ [(k, v)]

/-- Python del d[k] guarded by membership (consistent_hash.py lines 36-37):
drop the entry with key k if present. -/
def removeAssoc (l : List (Nat × String)) (k : Nat) : List (Nat × String) :=
  l.filter (fun p => decide (p.1 ≠ k))

/-- ConsistentHash.add_node, consistent_hash.py lines 17-25. -/
def ConsistentHash.addNode (H : String → Nat) (ch : ConsistentHash) (node : String) :
    ConsistentHash :=
  if node ∈ ch.nodes then ch
  else
    let ring := (List.range ch.virtualNodes).foldl
      (fun r i => updateAssoc r (hashVirtual H node i) node) ch.ring
    { ch with
      nodes := ch.nodes ++ [node]
      ring := ring
      sortedKeys := List.insertionSort (· ≤ ·) (ring.map Prod.fst) }

/-- ConsistentHash.remove_node, consistent_hash.py lines 27-39. -/
def ConsistentHash.removeNode (H : String → Nat) (ch : ConsistentHash) (node : String) :
    ConsistentHash :=
  if node ∈ ch.nodes then
    let ring := (List.range ch.virtualNodes).foldl
      (fun r i => removeAssoc r (hashVirtual H node i)) ch.ring
    { ch with
      nodes := ch.nodes.filter (fun n => decide (n ≠ node))
      ring := ring
      sortedKeys := List.insertionSort (· ≤ ·) (ring.map Prod.fst) }
  else ch

/-- bisect.bisect_right on a sorted list of naturals: the insertion point
to the right of x, which on a sorted list is the number of elements that
are at most x. -/
def bisectRight (l : List Nat) (x : Nat) : Nat :=
  l.countP (fun k => decide (k ≤ x))

/-- ConsistentHash.get_node, consistent_hash.py lines 41-50.  Python
returns None on an empty ring; indexing self.ring[self.sorted_keys[index]]
is modelled by an association-list lookup (under the ring invariant the
selected key is always present, so the default key 0 passed to getD is
never consulted on reachable states). -/
def ConsistentHash.getNode (H : String → Nat) (ch : ConsistentHash) (key : String) :
    Option String :=
  if ch.ring.isEmpty then none
  else
    let hashValue := H key
    let index := bisectRight ch.sortedKeys hashValue
    let index := if index = ch.sortedKeys.length then 0 else index
    ch.ring.lookup (ch.sortedKeys.getD index 0)

/-- ConsistentHash.__init__ with nodes=None: the empty ring. -/
def emptyRing (V : Nat) : ConsistentHash :=
  ⟨V, [], [], []⟩

/-- ConsistentHash.__init__ with a node list: add each node in order. -/
def buildRing (H : String → Nat) (V : Nat) (nodes : List String) : ConsistentHash :=
  nodes.foldl (ConsistentHash.addNode H) (emptyRing V)

/-- A membership operation on the ring. -/
inductive RingOp where
  | add (node : String)
  | remove (node : String)
deriving Repr, DecidableEq

/-- Apply one membership operation. -/
def applyOp (H : String → Nat) (ch : ConsistentHash) : RingOp → ConsistentHash
  | .add n => ch.addNode H n
  | .remove n => ch.removeNode H n

/-- Apply a sequence of membership operations in order. -/
def applyOps (H : String → Nat) (ch : ConsistentHash) (ops : List RingOp) : ConsistentHash :=
  ops.foldl (applyOp H) ch

/-- The node names mentioned by a sequence of operations. -/
def opNodes : List RingOp → List String
  | [] => []
  | .add n :: rest => n :: opNodes rest
  | .remove n :: rest => n :: opNodes rest

/-- The hash function assigns distinct values to the virtual keys of the
named nodes (md5 has no known collisions, and the source's comment treats
collisions as astronomically unlikely; every claim about the ring that
needs collision-freeness takes this as a hypothesis). -/
def VKeysInj (H : String → Nat) (V : Nat) (ns : List String) : Prop :=
  ∀ n ∈ ns, ∀ m ∈ ns, ∀ i ∈ List.range V, ∀ j ∈ List.range V,
    hashVirtual H n i = hashVirtual H m j → n = m ∧ i = j

/-- Structural invariant of a ConsistentHash state, maintained by add_node
and remove_node from the empty ring: nodes is duplicate-free, sortedKeys
is the sorted list of the ring's keys, ring keys are unique, every ring
value is a member node, and every ring key is the hash of a virtual key of
its value. -/
def RingInv (H : String → Nat) (ch : ConsistentHash) : Prop :=
  ch.nodes.Nodup ∧
  ch.sortedKeys = List.insertionSort (· ≤ ·) (ch.ring.map Prod.fst) ∧
  (ch.ring.map Prod.fst).Nodup ∧
  (∀ p ∈ ch.ring, p.2 ∈ ch.nodes) ∧
  (∀ p ∈ ch.ring, ∃ i ∈ List.range ch.virtualNodes, p.1 = hashVirtual H p.2 i)

/-- Strong invariant for sequences of membership operations whose node
names all lie in N: the ring entries are exactly the virtual-node entries
of the current members (up to order), under collision-freeness of the
hash on N. -/
def OpsInv (H : String → Nat) (V : Nat) (N : List String) (ch : ConsistentHash) : Prop :=
  ch.virtualNodes = V ∧
  ch.nodes.Nodup ∧
  (∀ n ∈ ch.nodes, n ∈ N) ∧
  ch.ring.Perm (ch.nodes.flatMap (vEntries H V)) ∧
  ch.sortedKeys = List.insertionSort (· ≤ ·) (ch.ring.map Prod.fst)

/-- Selection step of the lookup as worded in the specification: the
smallest ring hash strictly greater than h, wrapping to the first (the
smallest) entry when no ring hash exceeds h.  On a sorted list the first
element of the filtered list is that smallest element. -/
def chooseKey (S : List Nat) (h : Nat) : Option Nat :=
  match S.filter (fun k => decide (h < k)) with
  | [] => S.head?
  | k :: _ => some k

/-- Lookup as worded in the specification, to be compared with getNode:
compute h = H(key), find the smallest ring hash strictly greater than h,
wrap to the first entry if none, return its endpoint; fail (return no
endpoint) if no endpoints are registered. -/
def lookupSpec (H : String → Nat) (ch : ConsistentHash) (key : String) : Option String :=
  match chooseKey ch.sortedKeys (H key) with
  | none => none
  | some k => ch.ring.lookup k

/-! ### gateway.py -/

/-- Routing failure, gateway.py lines 29-30 and 62: either no workers are
registered, or the primary and every failover attempt failed (carrying the
primary attempt's error). -/
inductive RouteError (ε : Type) where
  | noWorkers
  | allFailed (cause : ε)
deriving Repr, DecidableEq

/-- Failover loop of Gateway.route_request, gateway.py lines 46-62:
iterate the members, skip the primary target, return the first success,
and raise with the primary error once every member has been tried. -/
def tryOthers {ε ρ : Type} (forward : String → Except ε ρ) (target : String)
    (primaryErr : ε) : List String → Except (RouteError ε) ρ
  | [] => .error (.allFailed primaryErr)
  | n :: rest =>
    if n = target then tryOthers forward target primaryErr rest
    else
      match forward n with
      | .ok r => .ok r
      | .error _ => tryOthers forward target primaryErr rest

/-- Gateway.route_request, gateway.py lines 23-62, with the transport
round-trip abstracted as the function forward and the routing key
(request_id) passed explicitly. -/
def routeRequest {ε ρ : Type} (H : String → Nat) (forward : String → Except ε ρ)
    (ch : ConsistentHash) (requestId : String) : Except (RouteError ε) ρ :=
  match ch.getNode H requestId with
  | none => .error .noWorkers
  | some target =>
    match forward target with
    | .ok r => .ok r
    | .error e => tryOthers forward target e ch.nodes

/-- The members a left-to-right scan of l actually forwards to: every
member up to and including the first success. -/
def attemptsOn {ε ρ : Type} (forward : String → Except ε ρ) : List String → List String
  | [] => []
  | n :: rest =>
    match forward n with
    | .ok _ => [n]
    | .error _ => n :: attemptsOn forward rest

/-- Response of the first member of l whose forward succeeds, if any. -/
def firstSuccess {ε ρ : Type} (forward : String → Except ε ρ) (l : List String) : Option ρ :=
  l.findSome? (fun n => (forward n).toOption)

/-! ### batch_processor.py -/

/-- BatchMetrics, batch_processor.py lines 7-13; the float avg_batch_size
is modelled exactly over the rationals. -/
structure BatchMetrics where
  total_requests : Nat := 0
  total_batches : Nat := 0
  avg_batch_size : Rat := 0
  timeout_batches : Nat := 0
  full_batches : Nat := 0
deriving Repr, DecidableEq

/-- A message delivered into one caller's completion slot (its
result_queue): the caller's own result, or the error dictionary built from
the exception raised by the compute function. -/
inductive SlotMsg (ρ : Type) where
  | result (r : ρ)
  | error (e : String)
deriving Repr, DecidableEq

/-- BatchProcessor._process_batch, batch_processor.py lines 80-111.
Returns the list of messages put into each completion slot (indexed like
the batch; zip truncation means slot i receives results[i] exactly when
i is below the result count) together with the updated metrics.  On a
compute exception every slot receives the same error and the metrics are
untouched. -/
def processBatchRun {α ρ : Type} (fn : List α → Except String (List ρ))
    (batch : List α) (isTimeout : Bool) (m : BatchMetrics) :
    List (List (SlotMsg ρ)) × BatchMetrics :=
  if batch.isEmpty then ([], m)
  else
    match fn batch with
    | .ok results =>
      let writes := (List.range batch.length).map (fun i =>
        match results[i]? with
        | some r => [SlotMsg.result r]
        | none => [])
      let total := m.total_batches + 1
      let prevTotal := m.avg_batch_size * ((total : Rat) - 1)
      let avg := (prevTotal + (batch.length : Rat)) / (total : Rat)
      let m := { m with total_batches := total, avg_batch_size := avg }
      let m := if isTimeout then { m with timeout_batches := m.timeout_batches + 1 }
               else { m with full_batches := m.full_batches + 1 }
      (writes, m)
    | .error e => (batch.map (fun _ => [SlotMsg.error e]), m)

/-- Metrics evolution over a sequence of batch dispatches (each with its
timeout flag), as performed by the processing loop. -/
def runBatches {α ρ : Type} (fn : List α → Except String (List ρ))
    (m : BatchMetrics) (l : List (List α × Bool)) : BatchMetrics :=
  l.foldl (fun m bt => (processBatchRun fn bt.1 bt.2 m).2) m

/-! #### the timed dispatch loop (batch_processor.py lines 52-78) -/

/-- One recorded dispatch: the batch handed to _process_batch, its trigger
(isTimeout true for the Empty branch, false for the size trigger), the
time at which it happened, and the value of last_batch_time at that
moment. -/
structure DispatchRec (α : Type) where
  batch : List α
  isTimeout : Bool
  time : Nat
  anchor : Nat
deriving Repr, DecidableEq

/-- State of _processing_loop between iterations: the current batch, the
last_batch_time anchor, the current clock, and the dispatches so far. -/
structure LoopState (α : Type) where
  batch : List α
  lastBatchTime : Nat
  now : Nat
  dispatches : List (DispatchRec α)
deriving Repr, DecidableEq

/-- One observable outcome of the blocking Queue.get call: a request
arrives at absolute time t, or the wait expires (the Empty branch). -/
inductive LoopEvent (α : Type) where
  | arrive (r : α) (t : Nat)
  | expire
deriving Repr, DecidableEq

/-- timeout_remaining, batch_processor.py line 61: max(0, timeout_ms -
elapsed) where elapsed = now - last_batch_time (natural subtraction is
already truncated; the max is kept to mirror the source). -/
def timeoutRemaining (timeoutMs : Nat) (s : LoopState α) : Nat :=
  max 0 (timeoutMs - (s.now - s.lastBatchTime))

/-- The deadline the loop passes to Queue.get (line 63).  The source
always passes the finite value timeout_remaining; an unbounded wait would
be modelled as none. -/
def waitBound (timeoutMs : Nat) (s : LoopState α) : Option Nat :=
  some (timeoutRemaining timeoutMs s)

/-- One iteration of _processing_loop, lines 57-78.  An arrival appends to
the batch and dispatches with trigger FULL when the batch has reached
max_batch_size; an expiry dispatches a non-empty batch with trigger
TIMEOUT; in either dispatch (and on an empty expiry) last_batch_time is
reset to the current time. -/
def loopStep (maxB timeoutMs : Nat) (s : LoopState α) : LoopEvent α → LoopState α
  | .arrive r t =>
    if maxB ≤ (s.batch ++ [r]).length then
      { s with now := t, batch := []
               dispatches := s.dispatches ++ [⟨s.batch ++ [r], false, t, s.lastBatchTime⟩]
               lastBatchTime := t }
    else
      { s with now := t, batch := s.batch ++ [r] }
  | .expire =>
    if s.batch.isEmpty then
      { s with now := s.now + timeoutRemaining timeoutMs s
               lastBatchTime := s.now + timeoutRemaining timeoutMs s }
    else
      { s with now := s.now + timeoutRemaining timeoutMs s, batch := []
               dispatches := s.dispatches ++
                 [⟨s.batch, true, s.now + timeoutRemaining timeoutMs s, s.lastBatchTime⟩]
               lastBatchTime := s.now + timeoutRemaining timeoutMs s }

/-- Run the loop over a sequence of Queue.get outcomes. -/
def runLoop (maxB timeoutMs : Nat) (s : LoopState α) (evs : List (LoopEvent α)) : LoopState α :=
  evs.foldl (loopStep maxB timeoutMs) s

/-- Loop state at the top of the loop, clock and anchor at t0. -/
def initLoop (t0 : Nat) : LoopState α :=
  ⟨[], t0, t0, []⟩

/-- Timing validity of an event trace: an arrival is delivered no earlier
than the current clock and no later than the deadline of the running
Queue.get call (the wait expires exactly at that deadline). -/
def validFrom (maxB timeoutMs : Nat) (s : LoopState α) : List (LoopEvent α) → Bool
  | [] => true
  | e :: rest =>
    (match e with
     | .arrive _ t => decide (s.now ≤ t) && decide (t ≤ s.now + timeoutRemaining timeoutMs s)
     | .expire => true) &&
    validFrom maxB timeoutMs (loopStep maxB timeoutMs s e) rest

/-! #### process, stop, and the loop together (batch_processor.py lines 27-78)

An untimed model of the coalescer as a whole: callers enqueue
(request, completion slot) pairs through process, stop clears the running
flag, and each loop iteration pops the queue or fires the timeout branch,
guarded by the running check of the while loop. -/

/-- Whole-coalescer state: the running flag, the multi-producer queue of
(request, slot id) pairs, the loop's current batch, every slot write
performed so far (slot id paired with the delivered message), and the next
fresh slot id. -/
structure CoState (α ρ : Type) where
  running : Bool
  queue : List (α × Nat)
  batch : List (α × Nat)
  writes : List (Nat × SlotMsg ρ)
  nextSlot : Nat
deriving Repr, DecidableEq

/-- An observable event of the whole coalescer: a caller's process call
enqueues a request, the dispatch loop performs one iteration, or stop is
called. -/
inductive CoEvent (α : Type) where
  | submit (r : α)
  | iter
  | stop
deriving Repr, DecidableEq

/-- Slot writes of _process_batch for one dispatched batch of
(request, slot) pairs: on success zip the results against the slots (zip
truncates at the shorter list), on a compute exception deliver the same
error to every slot. -/
def dispatchWrites {α ρ : Type} (fn : List α → Except String (List ρ))
    (batch : List (α × Nat)) : List (Nat × SlotMsg ρ) :=
  match fn (batch.map Prod.fst) with
  | .ok results => List.zipWith (fun p r => (p.2, SlotMsg.result r)) batch results
  | .error e => batch.map (fun p => (p.2, SlotMsg.error e))

/-- One whole-coalescer step.  A submit enqueues unconditionally (process,
lines 39-43, performs no running check).  A loop iteration first checks
the running flag (the while condition, line 57): when clear the loop has
exited and the iteration does nothing; when set it pops the next queued
request into the batch and dispatches on reaching max_batch_size, or, with
an empty queue, fires the timeout branch which dispatches a non-empty
batch.  stop (lines 34-37) only clears the running flag. -/
def coStep {α ρ : Type} (maxB : Nat) (fn : List α → Except String (List ρ))
    (s : CoState α ρ) : CoEvent α → CoState α ρ
  | .submit r => { s with queue := s.queue ++ [(r, s.nextSlot)], nextSlot := s.nextSlot + 1 }
  | .stop => { s with running := false }
  | .iter =>
    if s.running then
      match s.queue with
      | [] =>
        if s.batch.isEmpty then s
        else { s with batch := [], writes := s.writes ++ dispatchWrites fn s.batch }
      | q :: rest =>
        let batch := s.batch ++ [q]
        if maxB ≤ batch.length then
          { s with queue := rest, batch := [], writes := s.writes ++ dispatchWrites fn batch }
        else
          { s with queue := rest, batch := batch }
    else s

/-- Run the whole-coalescer model over an event sequence. -/
def runCo {α ρ : Type} (maxB : Nat) (fn : List α → Except String (List ρ))
    (s : CoState α ρ) (evs : List (CoEvent α)) : CoState α ρ :=
  evs.foldl (coStep maxB fn) s

/-- Number of submit events in a trace. -/
def countSubmits {α : Type} (evs : List (CoEvent α)) : Nat :=
  evs.countP (fun e => match e with | .submit _ => true | _ => false)

/-- Coalescer state right after start: running, nothing queued, nothing
written. -/
def initCo {α ρ : Type} : CoState α ρ :=
  ⟨true, [], [], [], 0⟩

/-- Concrete executable stand-in for the md5-based hash used by the
witnesses: read the utf-8 code points as base-256 digits after a leading
one (injective on the short keys the witnesses use, which the witnesses
check by decide through VKeysInj). -/
def hashC (s : String) : Nat :=
  s.data.foldl (fun a c => a * 256 + c.toNat) 1

instance (H : String → Nat) (V : Nat) (ns : List String) : Decidable (VKeysInj H V ns) := by
  unfold VKeysInj; infer_instance

instance (H : String → Nat) (ch : ConsistentHash) : Decidable (RingInv H ch) := by
  unfold RingInv; infer_instance

/-! ## Helper lemmas -/

theorem map_fst_updateAssoc (l : List (Nat × String)) (k : Nat) (v : String) :
    (updateAssoc l k v).map Prod.fst =
      if k ∈ l.map Prod.fst then l.map Prod.fst else l.map Prod.fst ++ [k] := by
  unfold updateAssoc
  split
  · simp only [List.map_map, if_pos ‹_›]
    refine List.map_congr_left fun p _ => ?_
    by_cases h : p.1 = k <;> simp [h]
  · simp [if_neg ‹_›]

theorem updateAssoc_fresh (l : List (Nat × String)) (k : Nat) (v : String)
    (h : k ∉ l.map Prod.fst) : updateAssoc l k v = l ++ [(k, v)] := by
  unfold updateAssoc
  exact if_neg h

theorem mem_updateAssoc {l : List (Nat × String)} {k : Nat} {v : String} {p : Nat × String}
    (hp : p ∈ updateAssoc l k v) : p ∈ l ∨ p = (k, v) := by
  unfold updateAssoc at hp
  split at hp
  · rcases List.mem_map.1 hp with ⟨q, hq, rfl⟩
    by_cases h : q.1 = k
    · right; simp [h]
    · left; simpa [h] using hq
  · rcases List.mem_append.1 hp with h | h
    · exact Or.inl h
    · right; simpa using h

theorem vKeys_map (H : String → Nat) (V : Nat) (n : String) :
    (vKeys H V n).map (fun k => (k, n)) = vEntries H V n := by
  simp [vKeys, vEntries, List.map_map, Function.comp]

theorem foldl_updateAssoc_fresh (v : String) :
    ∀ (ks : List Nat) (l : List (Nat × String)), ks.Nodup →
      (∀ k ∈ ks, k ∉ l.map Prod.fst) →
      ks.foldl (fun r k => updateAssoc r k v) l = l ++ ks.map (fun k => (k, v))
  | [], l, _, _ => by simp
  | k :: ks, l, hnd, hfresh => by
    have hk : k ∉ l.map Prod.fst := hfresh k (List.mem_cons_self k ks)
    have step : updateAssoc l k v = l ++ [(k, v)] := updateAssoc_fresh l k v hk
    have hnd' : ks.Nodup := (List.nodup_cons.1 hnd).2
    have hkk : k ∉ ks := (List.nodup_cons.1 hnd).1
    have hfresh' : ∀ k' ∈ ks, k' ∉ (l ++ [(k, v)]).map Prod.fst := by
      intro k' hk'
      simp only [List.map_append, List.mem_append, List.map_cons, List.map_nil,
        List.mem_singleton, not_or]
      refine ⟨hfresh k' (List.mem_cons_of_mem _ hk'), ?_⟩
      intro h
      exact hkk (h ▸ hk')
    calc (k :: ks).foldl (fun r k => updateAssoc r k v) l
        = ks.foldl (fun r k => updateAssoc r k v) (l ++ [(k, v)]) := by rw [List.foldl_cons, step]
      _ = (l ++ [(k, v)]) ++ ks.map (fun k => (k, v)) :=
          foldl_updateAssoc_fresh v ks (l ++ [(k, v)]) hnd' hfresh'
      _ = l ++ (k :: ks).map (fun k => (k, v)) := by simp

/-- Effect of add_node on a state none of whose ring keys collides with
the new node's virtual keys: the new entries are appended. -/
theorem addNode_fresh (H : String → Nat) (ch : ConsistentHash) (n : String)
    (hn : n ∉ ch.nodes) (hnd : (vKeys H ch.virtualNodes n).Nodup)
    (hfresh : ∀ k ∈ vKeys H ch.virtualNodes n, k ∉ ch.ring.map Prod.fst) :
    ch.addNode H n =
      { virtualNodes := ch.virtualNodes
        ring := ch.ring ++ vEntries H ch.virtualNodes n
        sortedKeys := List.insertionSort (· ≤ ·)
          ((ch.ring ++ vEntries H ch.virtualNodes n).map Prod.fst)
        nodes := ch.nodes ++ [n] } := by
  unfold ConsistentHash.addNode
  rw [if_neg hn]
  have hfold : (List.range ch.virtualNodes).foldl
      (fun r i => updateAssoc r (hashVirtual H n i) n) ch.ring =
      ch.ring ++ vEntries H ch.virtualNodes n := by
    have h1 : (List.range ch.virtualNodes).foldl
        (fun r i => updateAssoc r (hashVirtual H n i) n) ch.ring =
        (vKeys H ch.virtualNodes n).foldl (fun r k => updateAssoc r k n) ch.ring := by
      rw [vKeys, List.foldl_map]
    rw [h1, foldl_updateAssoc_fresh n _ _ hnd hfresh, vKeys_map]
  simp only [hfold]

theorem map_fst_vEntries (H : String → Nat) (V : Nat) (n : String) :
    (vEntries H V n).map Prod.fst = vKeys H V n := by
  simp [vEntries, vKeys, List.map_map, Function.comp]

/-- Folding add_node over a duplicate-free list of fresh nodes whose
virtual keys are collision-free appends all their entries in order. -/
theorem foldl_addNode_spec (H : String → Nat) :
    ∀ (l : List String) (ch : ConsistentHash), l.Nodup →
      (∀ n ∈ l, n ∉ ch.nodes) →
      (ch.sortedKeys = List.insertionSort (· ≤ ·) (ch.ring.map Prod.fst)) →
      ((ch.ring.map Prod.fst) ++ l.flatMap (vKeys H ch.virtualNodes)).Nodup →
      l.foldl (ConsistentHash.addNode H) ch =
        { virtualNodes := ch.virtualNodes
          ring := ch.ring ++ l.flatMap (vEntries H ch.virtualNodes)
          sortedKeys := List.insertionSort (· ≤ ·)
            ((ch.ring ++ l.flatMap (vEntries H ch.virtualNodes)).map Prod.fst)
          nodes := ch.nodes ++ l }
  | [], ch, _, _, hsorted, _ => by
    simp only [List.foldl_nil, List.flatMap_nil, List.append_nil]
    exact ConsistentHash.ext rfl rfl hsorted rfl
  | n :: rest, ch, hnd, hfreshN, hsorted, hkeys => by
    have hn : n ∉ ch.nodes := hfreshN n (List.mem_cons_self n rest)
    have hflat : (n :: rest).flatMap (vKeys H ch.virtualNodes) =
        vKeys H ch.virtualNodes n ++ rest.flatMap (vKeys H ch.virtualNodes) := by
      simp
    rw [hflat] at hkeys
    have hkeys' : ((ch.ring.map Prod.fst ++ vKeys H ch.virtualNodes n) ++
        rest.flatMap (vKeys H ch.virtualNodes)).Nodup := by
      rwa [List.append_assoc]
    have hvnd : (vKeys H ch.virtualNodes n).Nodup := by
      have : (vKeys H ch.virtualNodes n).Sublist
          (ch.ring.map Prod.fst ++ (vKeys H ch.virtualNodes n ++
            rest.flatMap (vKeys H ch.virtualNodes))) :=
        ((List.sublist_append_left _ _).trans (List.sublist_append_right _ _))
      exact hkeys.sublist this
    have hvfresh : ∀ k ∈ vKeys H ch.virtualNodes n, k ∉ ch.ring.map Prod.fst := by
      intro k hk hmem
      have hdisj := List.disjoint_of_nodup_append hkeys
      exact hdisj hmem (List.mem_append_left _ hk)
    have hstep := addNode_fresh H ch n hn hvnd hvfresh
    set ch' : ConsistentHash :=
      { virtualNodes := ch.virtualNodes
        ring := ch.ring ++ vEntries H ch.virtualNodes n
        sortedKeys := List.insertionSort (· ≤ ·)
          ((ch.ring ++ vEntries H ch.virtualNodes n).map Prod.fst)
        nodes := ch.nodes ++ [n] } with hch'
    have hrest : rest.foldl (ConsistentHash.addNode H) ch' =
        { virtualNodes := ch'.virtualNodes
          ring := ch'.ring ++ rest.flatMap (vEntries H ch'.virtualNodes)
          sortedKeys := List.insertionSort (· ≤ ·)
            ((ch'.ring ++ rest.flatMap (vEntries H ch'.virtualNodes)).map Prod.fst)
          nodes := ch'.nodes ++ rest } := by
      apply foldl_addNode_spec H rest ch' (List.nodup_cons.1 hnd).2
      · intro m hm
        simp only [hch', List.mem_append, List.mem_singleton, not_or]
        exact ⟨hfreshN m (List.mem_cons_of_mem _ hm),
          fun h => (List.nodup_cons.1 hnd).1 (h ▸ hm)⟩
      · rfl
      · show ((ch.ring ++ vEntries H ch.virtualNodes n).map Prod.fst ++
          rest.flatMap (vKeys H ch.virtualNodes)).Nodup
        rwa [List.map_append, map_fst_vEntries]
    calc (n :: rest).foldl (ConsistentHash.addNode H) ch
        = rest.foldl (ConsistentHash.addNode H) ch' := by rw [List.foldl_cons, hstep]
      _ = _ := by
          rw [hrest]
          refine ConsistentHash.ext rfl ?_ ?_ ?_ <;>
            simp [hch', List.append_assoc]

/-- Collision-freeness of the hash on a duplicate-free node list makes the
concatenation of all virtual keys duplicate-free. -/
theorem flatMap_vKeys_nodup (H : String → Nat) (V : Nat) (l : List String)
    (hnd : l.Nodup) (hinj : VKeysInj H V l) : (l.flatMap (vKeys H V)).Nodup := by
  rw [List.nodup_flatMap]
  constructor
  · intro n hn
    refine (List.nodup_range V).map_on ?_
    intro i hi j hj hij
    exact ((hinj n hn n hn i hi j hj hij).2)
  · refine hnd.imp_of_mem ?_
    intro a b ha hb hab
    intro k hka hkb
    rcases List.mem_map.1 hka with ⟨i, hi, rfl⟩
    rcases List.mem_map.1 hkb with ⟨j, hj, hji⟩
    exact hab (hinj a ha b hb i hi j hj hji.symm).1

/-- The ConsistentHash state built from a duplicate-free, collision-free
node list, in closed form. -/
theorem buildRing_eq (H : String → Nat) (V : Nat) (l : List String)
    (hnd : l.Nodup) (hinj : VKeysInj H V l) :
    buildRing H V l =
      { virtualNodes := V
        ring := l.flatMap (vEntries H V)
        sortedKeys := List.insertionSort (· ≤ ·)
          ((l.flatMap (vEntries H V)).map Prod.fst)
        nodes := l } := by
  have h := foldl_addNode_spec H l (emptyRing V) hnd (by simp [emptyRing]) (by simp [emptyRing])
    (by simpa [emptyRing] using flatMap_vKeys_nodup H V l hnd hinj)
  simpa [buildRing, emptyRing] using h

/-- Lookup finds the value of a present key when keys are unique. -/
theorem lookup_eq_some_of_mem {l : List (Nat × String)} {k : Nat} {v : String}
    (hnd : (l.map Prod.fst).Nodup) (hmem : (k, v) ∈ l) : l.lookup k = some v := by
  induction l with
  | nil => cases hmem
  | cons p rest ih =>
    simp only [List.map_cons, List.nodup_cons] at hnd
    rcases List.mem_cons.1 hmem with h | hmem'
    · subst h
      simp [List.lookup_cons]
    · have hk : (k == p.1) = false := by
        rw [beq_eq_false_iff_ne]
        intro hkp
        exact hnd.1 (List.mem_map.2 ⟨(k, v), hmem', hkp⟩)
      rw [List.lookup_cons, hk]
      exact ih hnd.2 hmem'

/-- A successful lookup exhibits a member entry. -/
theorem mem_of_lookup_eq_some {l : List (Nat × String)} {k : Nat} {v : String}
    (h : l.lookup k = some v) : (k, v) ∈ l := by
  rcases List.lookup_eq_some_iff.1 h with ⟨l₁, l₂, rfl, -⟩
  simp

/-- Lookup is invariant under permutation when keys are unique. -/
theorem lookup_perm {l₁ l₂ : List (Nat × String)} (hp : l₁.Perm l₂)
    (hnd : (l₁.map Prod.fst).Nodup) (k : Nat) : l₁.lookup k = l₂.lookup k := by
  have hnd₂ : (l₂.map Prod.fst).Nodup := ((hp.map Prod.fst).nodup_iff).1 hnd
  cases h : l₁.lookup k with
  | some v =>
    exact (lookup_eq_some_of_mem hnd₂ (hp.mem_iff.1 (mem_of_lookup_eq_some h))).symm
  | none =>
    symm
    rw [List.lookup_eq_none_iff] at h ⊢
    intro p hp'
    exact h p (hp.mem_iff.2 hp')

/-- A sorted list splits into the elements at most h followed by the
elements strictly above h. -/
theorem sorted_filter_split {S : List Nat} (h : Nat) (hs : S.Sorted (· ≤ ·)) :
    S = S.filter (fun k => decide (k ≤ h)) ++ S.filter (fun k => decide (h < k)) := by
  induction S with
  | nil => rfl
  | cons a rest ih =>
    have hrest := hs.of_cons
    by_cases hah : a ≤ h
    · have h2 : ¬(h < a) := not_lt.2 hah
      simp only [List.filter_cons, decide_eq_true hah, decide_eq_false h2]
      simpa using ih hrest
    · have hha : h < a := lt_of_not_le hah
      have hf1 : rest.filter (fun k => decide (k ≤ h)) = [] := by
        rw [List.filter_eq_nil_iff]
        intro b hb
        have : a ≤ b := List.rel_of_sorted_cons hs b hb
        simp only [decide_eq_true_eq]
        omega
      have hf2 : rest.filter (fun k => decide (h < k)) = rest := by
        rw [List.filter_eq_self]
        intro b hb
        have : a ≤ b := List.rel_of_sorted_cons hs b hb
        simp only [decide_eq_true_eq]
        omega
      simp only [List.filter_cons, decide_eq_false hah, decide_eq_true hha, hf1, hf2,
        List.nil_append]
      simp

theorem getD_append_length : ∀ (A : List Nat) (b : Nat) (B : List Nat),
    (A ++ b :: B).getD A.length 0 = b
  | [], _, _ => rfl
  | a :: A, b, B => by simpa using getD_append_length A b B

/-- The index arithmetic of get_node agrees with the specification's
selection: on a sorted non-empty key list, bisect plus wraparound selects
the smallest key strictly above the hash, or the first key if none. -/
theorem chooseKey_eq_getD (S : List Nat) (h : Nat) (hs : S.Sorted (· ≤ ·)) (hne : S ≠ []) :
    chooseKey S h =
      some (S.getD (if bisectRight S h = S.length then 0 else bisectRight S h) 0) := by
  have hsplit := sorted_filter_split h hs
  have hbis : bisectRight S h = (S.filter (fun k => decide (k ≤ h))).length :=
    List.countP_eq_length_filter _ _
  unfold chooseKey
  set A := S.filter (fun k => decide (k ≤ h)) with hA
  set B := S.filter (fun k => decide (h < k)) with hBd
  cases hB : B with
  | nil =>
    rw [hB, List.append_nil] at hsplit
    have hlen : bisectRight S h = S.length := by rw [hbis, hsplit]
    rw [if_pos hlen]
    cases hS : S with
    | nil => exact absurd hS hne
    | cons x rest => simp
  | cons b B' =>
    rw [hB] at hsplit
    have hlt : bisectRight S h < S.length := by
      rw [hbis, hsplit]
      simp only [List.length_append, List.length_cons]
      omega
    rw [if_neg (Nat.ne_of_lt hlt), hbis]
    have hget : S.getD A.length 0 = b := by
      rw [hsplit]
      exact getD_append_length A b B'
    rw [hget]

/-- get_node agrees with the specification's wording of lookup on every
state whose sortedKeys is the sorted list of the ring's keys. -/
theorem getNode_eq_lookupSpec (H : String → Nat) (ch : ConsistentHash) (key : String)
    (hs : ch.sortedKeys.Sorted (· ≤ ·))
    (hp : ch.sortedKeys.Perm (ch.ring.map Prod.fst)) :
    ch.getNode H key = lookupSpec H ch key := by
  by_cases hre : ch.ring.isEmpty
  · have hrn : ch.ring = [] := List.isEmpty_iff.1 hre
    have hS : ch.sortedKeys = [] := by
      have h2 := hp
      rw [hrn] at h2
      simpa using h2.eq_nil
    unfold ConsistentHash.getNode lookupSpec chooseKey
    rw [if_pos hre, hS]
    simp
  · have hSne : ch.sortedKeys ≠ [] := by
      intro h
      apply hre
      have h2 := hp
      rw [h] at h2
      have h3 : ch.ring.map Prod.fst = [] := (h2.symm).eq_nil
      rw [List.isEmpty_iff]
      exact List.map_eq_nil_iff.1 h3
    unfold ConsistentHash.getNode lookupSpec
    rw [if_neg hre, chooseKey_eq_getD _ _ hs hSne]

/-- updateAssoc preserves uniqueness of keys. -/
theorem keys_nodup_updateAssoc {l : List (Nat × String)} (k : Nat) (v : String)
    (hnd : (l.map Prod.fst).Nodup) : ((updateAssoc l k v).map Prod.fst).Nodup := by
  rw [map_fst_updateAssoc]
  split
  · exact hnd
  · rw [List.nodup_append]
    exact ⟨hnd, List.nodup_singleton k, by simpa using ‹k ∉ l.map Prod.fst›⟩

theorem keys_nodup_foldl_updateAssoc (v : String) :
    ∀ (ks : List Nat) (l : List (Nat × String)), (l.map Prod.fst).Nodup →
      ((ks.foldl (fun r k => updateAssoc r k v) l).map Prod.fst).Nodup
  | [], _, hnd => hnd
  | k :: ks, l, hnd =>
    keys_nodup_foldl_updateAssoc v ks (updateAssoc l k v) (keys_nodup_updateAssoc k v hnd)

/-- Membership in a fold of updateAssoc with constant value v: the entry
was already there, or its key was inserted and its value is v. -/
theorem mem_foldl_updateAssoc (v : String) :
    ∀ (ks : List Nat) (l : List (Nat × String)) (p : Nat × String),
      p ∈ ks.foldl (fun r k => updateAssoc r k v) l → p ∈ l ∨ (p.1 ∈ ks ∧ p.2 = v)
  | [], _, _, hp => Or.inl hp
  | k :: ks, l, p, hp => by
    rcases mem_foldl_updateAssoc v ks (updateAssoc l k v) p hp with h | h
    · rcases mem_updateAssoc h with h' | h'
      · exact Or.inl h'
      · right
        constructor
        · rw [h']; exact List.mem_cons_self k ks
        · rw [h']
    · exact Or.inr ⟨List.mem_cons_of_mem _ h.1, h.2⟩

/-- A fold of guarded deletions is one filter. -/
theorem foldl_removeAssoc :
    ∀ (ks : List Nat) (l : List (Nat × String)),
      ks.foldl (fun r k => removeAssoc r k) l = l.filter (fun p => decide (p.1 ∉ ks))
  | [], l => by simp
  | k :: ks, l => by
    rw [List.foldl_cons, foldl_removeAssoc ks (removeAssoc l k), removeAssoc,
      List.filter_filter]
    apply List.filter_congr
    intro p _
    by_cases h1 : p.1 = k <;> by_cases h2 : p.1 ∈ ks <;> simp [h1, h2]

/-- The empty ring satisfies the structural invariant. -/
theorem ringInv_empty (H : String → Nat) (V : Nat) : RingInv H (emptyRing V) := by
  refine ⟨?_, ?_, ?_, ?_, ?_⟩ <;> simp [emptyRing, List.insertionSort]

/-- add_node preserves the structural invariant. -/
theorem ringInv_addNode (H : String → Nat) {ch : ConsistentHash} (n : String)
    (hinv : RingInv H ch) : RingInv H (ch.addNode H n) := by
  obtain ⟨hnodes, hsorted, hkeys, hvals, hvirt⟩ := hinv
  unfold ConsistentHash.addNode
  by_cases hn : n ∈ ch.nodes
  · rw [if_pos hn]
    exact ⟨hnodes, hsorted, hkeys, hvals, hvirt⟩
  · rw [if_neg hn]
    have hfold : (List.range ch.virtualNodes).foldl
        (fun r i => updateAssoc r (hashVirtual H n i) n) ch.ring =
        (vKeys H ch.virtualNodes n).foldl (fun r k => updateAssoc r k n) ch.ring := by
      rw [vKeys, List.foldl_map]
    refine ⟨?_, rfl, ?_, ?_, ?_⟩
    · simp only [List.nodup_append, List.nodup_singleton]
      exact ⟨hnodes, trivial, by simpa using hn⟩
    · rw [hfold]
      exact keys_nodup_foldl_updateAssoc n _ _ hkeys
    · intro p hp
      rw [hfold] at hp
      rcases mem_foldl_updateAssoc n _ _ p hp with h | h
      · exact List.mem_append_left _ (hvals p h)
      · simp [h.2]
    · intro p hp
      rw [hfold] at hp
      rcases mem_foldl_updateAssoc n _ _ p hp with h | h
      · exact hvirt p h
      · rcases List.mem_map.1 h.1 with ⟨i, hi, hik⟩
        exact ⟨i, hi, by rw [h.2, ← hik]⟩

/-- The deletion loop of remove_node is one filter on the ring. -/
theorem removeNode_fold (H : String → Nat) (ch : ConsistentHash) (n : String) :
    (List.range ch.virtualNodes).foldl
      (fun r i => removeAssoc r (hashVirtual H n i)) ch.ring =
      ch.ring.filter (fun p => decide (p.1 ∉ vKeys H ch.virtualNodes n)) := by
  have h1 : (vKeys H ch.virtualNodes n).foldl (fun r k => removeAssoc r k) ch.ring =
      (List.range ch.virtualNodes).foldl
        (fun r i => removeAssoc r (hashVirtual H n i)) ch.ring := by
    rw [vKeys, List.foldl_map]
  rw [← h1, foldl_removeAssoc]

/-- remove_node preserves the structural invariant. -/
theorem ringInv_removeNode (H : String → Nat) {ch : ConsistentHash} (n : String)
    (hinv : RingInv H ch) : RingInv H (ch.removeNode H n) := by
  obtain ⟨hnodes, hsorted, hkeys, hvals, hvirt⟩ := hinv
  unfold ConsistentHash.removeNode
  by_cases hn : n ∈ ch.nodes
  · rw [if_pos hn]
    have hfold := removeNode_fold H ch n
    refine ⟨hnodes.filter _, rfl, ?_, ?_, ?_⟩
    · rw [hfold]
      exact hkeys.sublist ((List.filter_sublist _).map Prod.fst)
    · intro p hp
      rw [hfold] at hp
      have hmem := (List.mem_filter.1 hp).1
      have hguard := (List.mem_filter.1 hp).2
      rw [List.mem_filter]
      refine ⟨hvals p hmem, ?_⟩
      simp only [decide_eq_true_eq] at hguard ⊢
      intro hpn
      apply hguard
      rcases hvirt p hmem with ⟨i, hi, hik⟩
      rw [vKeys]
      refine List.mem_map.2 ⟨i, hi, ?_⟩
      rw [← hpn]
      exact hik.symm
    · intro p hp
      rw [hfold] at hp
      exact hvirt p (List.mem_filter.1 hp).1
  · rw [if_neg hn]
    exact ⟨hnodes, hsorted, hkeys, hvals, hvirt⟩

/-- Any sequence of membership operations preserves the structural
invariant. -/
theorem ringInv_applyOps (H : String → Nat) (ch : ConsistentHash) (ops : List RingOp)
    (hinv : RingInv H ch) : RingInv H (applyOps H ch ops) := by
  induction ops generalizing ch with
  | nil => exact hinv
  | cons op rest ih =>
    cases op with
    | add n => exact ih _ (ringInv_addNode H n hinv)
    | remove n => exact ih _ (ringInv_removeNode H n hinv)

theorem ringInv_foldl_addNode (H : String → Nat) (l : List String) (ch : ConsistentHash)
    (hinv : RingInv H ch) : RingInv H (l.foldl (ConsistentHash.addNode H) ch) := by
  induction l generalizing ch with
  | nil => exact hinv
  | cons n rest ih => exact ih _ (ringInv_addNode H n hinv)

/-- Every constructed ring satisfies the structural invariant. -/
theorem ringInv_buildRing (H : String → Nat) (V : Nat) (l : List String) :
    RingInv H (buildRing H V l) :=
  ringInv_foldl_addNode H l (emptyRing V) (ringInv_empty H V)

/-- get_node only looks at the ring as a key-to-node map and at
sortedKeys: permuting the ring entries (keys unique) while keeping
sortedKeys does not change any lookup. -/
theorem getNode_congr (H : String → Nat) (key : String) (ch₁ ch₂ : ConsistentHash)
    (hring : ch₁.ring.Perm ch₂.ring) (hnd : (ch₁.ring.map Prod.fst).Nodup)
    (hsk : ch₁.sortedKeys = ch₂.sortedKeys) :
    ch₁.getNode H key = ch₂.getNode H key := by
  unfold ConsistentHash.getNode
  by_cases h1 : ch₁.ring = []
  · have h2 : ch₂.ring = [] := by
      have := hring
      rw [h1] at this
      exact (this.symm).eq_nil
    simp [h1, h2]
  · have h2 : ch₂.ring ≠ [] := by
      intro h
      apply h1
      rw [h] at hring
      exact hring.eq_nil
    rw [if_neg (by simpa [List.isEmpty_iff] using h1),
      if_neg (by simpa [List.isEmpty_iff] using h2), hsk]
    exact lookup_perm hring hnd _

theorem map_fst_flatMap_vEntries (H : String → Nat) (V : Nat) (l : List String) :
    (l.flatMap (vEntries H V)).map Prod.fst = l.flatMap (vKeys H V) := by
  rw [List.map_flatMap]
  congr 1
  funext n
  exact map_fst_vEntries H V n

/-! ## Claim theorems -/

/-- C2: for every finite endpoint set (a duplicate-free list up to
permutation), every virtual-node count V, and every key, the endpoint
returned by get_node on a ring built from the set does not depend on the
order in which the endpoints were added, provided the hash assigns
distinct values to the virtual keys (the md5 assumption the source makes):
two rings constructed in different orders agree on every lookup. -/
theorem ring_order_independence (H : String → Nat) (V : Nat) (l₁ l₂ : List String)
    (hp : l₁.Perm l₂) (hnd : l₁.Nodup) (hinj : VKeysInj H V l₁) (key : String) :
    (buildRing H V l₁).getNode H key = (buildRing H V l₂).getNode H key := by
  have hnd₂ : l₂.Nodup := hp.nodup_iff.1 hnd
  have hinj₂ : VKeysInj H V l₂ := fun n hn m hm i hi j hj =>
    hinj n (hp.mem_iff.2 hn) m (hp.mem_iff.2 hm) i hi j hj
  rw [buildRing_eq H V l₁ hnd hinj, buildRing_eq H V l₂ hnd₂ hinj₂]
  have hring : (l₁.flatMap (vEntries H V)).Perm (l₂.flatMap (vEntries H V)) :=
    hp.flatMap_right _
  have hknd : ((l₁.flatMap (vEntries H V)).map Prod.fst).Nodup := by
    rw [map_fst_flatMap_vEntries]
    exact flatMap_vKeys_nodup H V l₁ hnd hinj
  apply getNode_congr
  · exact hring
  · exact hknd
  · have hs₁ : List.Sorted (· ≤ ·)
        (List.insertionSort (· ≤ ·) ((l₁.flatMap (vEntries H V)).map Prod.fst)) :=
      List.sorted_insertionSort _ _
    have hs₂ : List.Sorted (· ≤ ·)
        (List.insertionSort (· ≤ ·) ((l₂.flatMap (vEntries H V)).map Prod.fst)) :=
      List.sorted_insertionSort _ _
    exact List.eq_of_perm_of_sorted
      ((List.perm_insertionSort _ _).trans
        ((hring.map _).trans (List.perm_insertionSort _ _).symm)) hs₁ hs₂

/-- Witness for C2 at a concrete instance: the two insertion orders of the
endpoint set consisting of A and B give the same lookup for the key
req_0. -/
theorem ring_order_independence_witness :
    ((["A", "B"] : List String).Perm ["B", "A"] ∧ (["A", "B"] : List String).Nodup ∧
      VKeysInj hashC 1 ["A", "B"]) ∧
    (buildRing hashC 1 ["A", "B"]).getNode hashC "req_0" =
      (buildRing hashC 1 ["B", "A"]).getNode hashC "req_0" :=
  ⟨⟨by decide, by decide, by decide⟩,
    ring_order_independence hashC 1 ["A", "B"] ["B", "A"]
      (by decide) (by decide) (by decide) "req_0"⟩

/-- C5: on any state satisfying the ring invariant, get_node computes the
hash of the key and returns the endpoint owning the smallest ring hash
strictly greater than it, wrapping to the first ring entry when no ring
hash exceeds it (stated as agreement with lookupSpec, the selection worded
as in the specification); on the empty ring get_node returns no endpoint,
and route_request surfaces this as the no-workers-available error. -/
theorem lookup_spec_and_empty {ε ρ : Type} (H : String → Nat) (ch : ConsistentHash)
    (key : String) (V : Nat) (forward : String → Except ε ρ) (rid : String)
    (hinv : RingInv H ch) :
    ch.getNode H key = lookupSpec H ch key ∧
    (emptyRing V).getNode H key = none ∧
    routeRequest H forward (emptyRing V) rid = .error .noWorkers := by
  obtain ⟨-, hsorted, -, -, -⟩ := hinv
  refine ⟨?_, rfl, rfl⟩
  apply getNode_eq_lookupSpec
  · rw [hsorted]
    exact List.sorted_insertionSort _ _
  · rw [hsorted]
    exact List.perm_insertionSort _ _

/-- The failover loop tried against the members other than the primary
returns the first success among them, else the all-failed error with the
primary cause. -/
theorem tryOthers_eq {ε ρ : Type} (forward : String → Except ε ρ) (target : String)
    (e : ε) :
    ∀ l : List String, tryOthers forward target e l =
      match firstSuccess forward (l.filter (fun n => decide (n ≠ target))) with
      | some r => .ok r
      | none => .error (.allFailed e)
  | [] => rfl
  | n :: rest => by
    by_cases hn : n = target
    · rw [tryOthers, if_pos hn]
      have : (n :: rest).filter (fun n => decide (n ≠ target)) =
          rest.filter (fun n => decide (n ≠ target)) := by
        simp [List.filter_cons, hn]
      rw [this]
      exact tryOthers_eq forward target e rest
    · have hfil : (n :: rest).filter (fun n => decide (n ≠ target)) =
          n :: rest.filter (fun n => decide (n ≠ target)) := by
        simp [List.filter_cons, hn]
      rw [tryOthers, if_neg hn, hfil]
      cases hf : forward n with
      | ok r =>
        have : firstSuccess forward (n :: rest.filter (fun n => decide (n ≠ target))) =
            some r := by
          unfold firstSuccess
          rw [List.findSome?_cons]
          simp [hf, Except.toOption]
        rw [this]
      | error e' =>
        have : firstSuccess forward (n :: rest.filter (fun n => decide (n ≠ target))) =
            firstSuccess forward (rest.filter (fun n => decide (n ≠ target))) := by
          unfold firstSuccess
          rw [List.findSome?_cons]
          simp [hf, Except.toOption]
        rw [this]
        exact tryOthers_eq forward target e rest

/-- The attempted members form a sublist of the scanned list. -/
theorem attemptsOn_sublist {ε ρ : Type} (forward : String → Except ε ρ) :
    ∀ l : List String, (attemptsOn forward l).Sublist l
  | [] => List.Sublist.refl []
  | n :: rest => by
    rw [attemptsOn]
    cases forward n with
    | ok r => exact (List.nil_sublist rest).cons₂ n
    | error e => exact (attemptsOn_sublist forward rest).cons₂ n

/-- On any invariant-satisfying state, the node get_node returns is a
member. -/
theorem getNode_mem_nodes (H : String → Nat) {ch : ConsistentHash} {rid target : String}
    (hinv : RingInv H ch) (htgt : ch.getNode H rid = some target) : target ∈ ch.nodes := by
  obtain ⟨-, -, -, hvals, -⟩ := hinv
  unfold ConsistentHash.getNode at htgt
  by_cases hre : ch.ring.isEmpty
  · rw [if_pos hre] at htgt
    cases htgt
  · rw [if_neg hre] at htgt
    exact hvals _ (mem_of_lookup_eq_some htgt)

theorem head?_mem {S : List Nat} {x : Nat} (h : S.head? = some x) : x ∈ S := by
  cases S with
  | nil => cases h
  | cons a rest =>
    simp only [List.head?_cons, Option.some.injEq] at h
    rw [← h]
    exact List.mem_cons_self a rest

theorem head?_min {S : List Nat} {x : Nat} (hs : S.Sorted (· ≤ ·)) (h : S.head? = some x) :
    ∀ y ∈ S, x ≤ y := by
  cases S with
  | nil => cases h
  | cons a rest =>
    simp only [List.head?_cons, Option.some.injEq] at h
    subst h
    intro y hy
    rcases List.mem_cons.1 hy with rfl | hy'
    · exact le_refl y
    · exact List.rel_of_sorted_cons hs y hy'

/-- If chooseKey returns nothing the key list is empty. -/
theorem chooseKey_eq_none {S : List Nat} {h : Nat} (hck : chooseKey S h = none) : S = [] := by
  unfold chooseKey at hck
  cases hB : S.filter (fun k => decide (h < k)) with
  | nil =>
    rw [hB] at hck
    exact List.head?_eq_none_iff.1 hck
  | cons b rest =>
    rw [hB] at hck
    cases hck

/-- What chooseKey returns: the minimum key strictly above h, or, when no
key is above h, the minimum key overall. -/
theorem chooseKey_cases {S : List Nat} {h k : Nat} (hs : S.Sorted (· ≤ ·))
    (hck : chooseKey S h = some k) :
    k ∈ S ∧ ((h < k ∧ ∀ y ∈ S, h < y → k ≤ y) ∨
      ((∀ y ∈ S, ¬h < y) ∧ ∀ y ∈ S, k ≤ y)) := by
  unfold chooseKey at hck
  cases hB : S.filter (fun k => decide (h < k)) with
  | nil =>
    rw [hB] at hck
    refine ⟨head?_mem hck, Or.inr ⟨?_, head?_min hs hck⟩⟩
    intro y hy hlt
    have : y ∈ S.filter (fun k => decide (h < k)) := List.mem_filter.2 ⟨hy, by simpa using hlt⟩
    rw [hB] at this
    cases this
  | cons b rest =>
    rw [hB] at hck
    have hkb : k = b := by
      simpa using hck.symm
    subst hkb
    have hkmemf : k ∈ S.filter (fun k => decide (h < k)) := by
      rw [hB]
      exact List.mem_cons_self _ _
    have hsf : (S.filter (fun k => decide (h < k))).Sorted (· ≤ ·) := hs.filter _
    refine ⟨(List.mem_filter.1 hkmemf).1, Or.inl ⟨by simpa using (List.mem_filter.1 hkmemf).2, ?_⟩⟩
    intro y hy hlt
    have hyf : y ∈ S.filter (fun k => decide (h < k)) := List.mem_filter.2 ⟨hy, by simpa using hlt⟩
    have : (S.filter (fun k => decide (h < k))).head? = some k := by
      rw [hB]
      rfl
    exact head?_min hsf this y hyf

/-- chooseKey returns the minimum key strictly above h when one exists. -/
theorem chooseKey_eq_some_of_above {S : List Nat} {h k : Nat} (hs : S.Sorted (· ≤ ·))
    (hk : k ∈ S) (hlt : h < k) (hmin : ∀ y ∈ S, h < y → k ≤ y) :
    chooseKey S h = some k := by
  unfold chooseKey
  cases hB : S.filter (fun k => decide (h < k)) with
  | nil =>
    have : k ∈ S.filter (fun k => decide (h < k)) := List.mem_filter.2 ⟨hk, by simpa using hlt⟩
    rw [hB] at this
    cases this
  | cons b rest =>
    have hbf : b ∈ S.filter (fun k => decide (h < k)) := by
      rw [hB]
      exact List.mem_cons_self _ _
    have hbS := (List.mem_filter.1 hbf).1
    have hbh : h < b := by simpa using (List.mem_filter.1 hbf).2
    have hkf : k ∈ S.filter (fun k => decide (h < k)) := List.mem_filter.2 ⟨hk, by simpa using hlt⟩
    have hsf : (S.filter (fun k => decide (h < k))).Sorted (· ≤ ·) := hs.filter _
    have hhead : (S.filter (fun k => decide (h < k))).head? = some b := by
      rw [hB]
      rfl
    have h1 : b ≤ k := head?_min hsf hhead k hkf
    have h2 : k ≤ b := hmin b hbS hbh
    rw [Nat.le_antisymm h1 h2]

/-- chooseKey wraps to the overall minimum when no key is above h. -/
theorem chooseKey_eq_some_of_wrap {S : List Nat} {h k : Nat} (hs : S.Sorted (· ≤ ·))
    (hk : k ∈ S) (hnone : ∀ y ∈ S, ¬h < y) (hmin : ∀ y ∈ S, k ≤ y) :
    chooseKey S h = some k := by
  unfold chooseKey
  have hB : S.filter (fun k => decide (h < k)) = [] := by
    rw [List.filter_eq_nil_iff]
    intro y hy
    simpa using hnone y hy
  rw [hB]
  cases hS : S with
  | nil => exact absurd (hS ▸ hk) (List.not_mem_nil k)
  | cons a rest =>
    have hhead : S.head? = some a := by rw [hS]; rfl
    have h1 : a ≤ k := head?_min hs hhead k hk
    have h2 : k ≤ a := hmin a (by rw [hS]; exact List.mem_cons_self a rest)
    simp only [List.head?_cons, Option.some.injEq]
    omega

/-- Looking up a key absent from the first list skips it. -/
theorem lookup_append_right_of_fresh {R₁ R₂ : List (Nat × String)} {k : Nat}
    (h : k ∉ R₁.map Prod.fst) : (R₁ ++ R₂).lookup k = R₂.lookup k := by
  rw [List.lookup_append]
  have : R₁.lookup k = none := by
    rw [List.lookup_eq_none_iff]
    intro p hp
    simp only [bne_iff_ne, ne_eq]
    intro hk
    exact h (List.mem_map.2 ⟨p, hp, hk.symm⟩)
  rw [this, Option.none_or]

/-- Looking up a key of the first list never reaches the second. -/
theorem lookup_append_left_of_mem {R₁ R₂ : List (Nat × String)} {k : Nat}
    (h : k ∈ R₁.map Prod.fst) : (R₁ ++ R₂).lookup k = R₁.lookup k := by
  rw [List.lookup_append]
  have : (R₁.lookup k).isSome := by
    rw [List.lookup_isSome_iff]
    rcases List.mem_map.1 h with ⟨p, hp, hk⟩
    exact ⟨p, hp, by simp [hk]⟩
  cases hl : R₁.lookup k with
  | none => rw [hl] at this; cases this
  | some v => rfl

/-- Lookup in a constant-valued association list returns that value on any
present key. -/
theorem lookup_const_value {v : String} :
    ∀ (l : List (Nat × String)) (k : Nat), (∀ p ∈ l, p.2 = v) → k ∈ l.map Prod.fst →
      l.lookup k = some v
  | [], k, _, hk => by cases hk
  | p :: rest, k, hv, hk => by
    rw [List.lookup_cons]
    by_cases hkp : k = p.1
    · simp only [hkp, beq_self_eq_true, if_true]
      rw [hv p (List.mem_cons_self p rest)]
    · have hkb : (k == p.1) = false := by simpa using hkp
      rw [hkb]
      have : k ∈ rest.map Prod.fst := by
        rcases List.mem_map.1 hk with ⟨q, hq, hqk⟩
        rcases List.mem_cons.1 hq with rfl | hq'
        · exact absurd hqk.symm hkp
        · exact List.mem_map.2 ⟨q, hq', hqk⟩
      exact lookup_const_value rest k (fun q hq => hv q (List.mem_cons_of_mem p hq)) this

/-- lookupSpec after a successful key selection. -/
theorem lookupSpec_of_chooseKey_some (H : String → Nat) (ch : ConsistentHash) (key : String)
    {k : Nat} (hck : chooseKey ch.sortedKeys (H key) = some k) :
    lookupSpec H ch key = ch.ring.lookup k := by
  unfold lookupSpec
  rw [hck]

/-- lookupSpec after an empty key selection. -/
theorem lookupSpec_of_chooseKey_none (H : String → Nat) (ch : ConsistentHash) (key : String)
    (hck : chooseKey ch.sortedKeys (H key) = none) :
    lookupSpec H ch key = none := by
  unfold lookupSpec
  rw [hck]

/-- C7: route_request forwards to the primary worker chosen by the ring;
on a transport error it scans the other ring members, trying each at most
once (the attempted members are duplicate-free and number at most the
member count, hence at most member count minus one additional attempts),
returns the first successful response, and when every member fails it
raises the all-workers-failed error carrying the primary attempt's
cause. -/
theorem route_failover {ε ρ : Type} (H : String → Nat) (forward : String → Except ε ρ)
    (ch : ConsistentHash) (rid target : String)
    (hinv : RingInv H ch) (htgt : ch.getNode H rid = some target) :
    (∀ r : ρ, routeRequest H forward ch rid = .ok r ↔
        firstSuccess forward
          (target :: ch.nodes.filter (fun n => decide (n ≠ target))) = some r) ∧
    (∀ e : ε, forward target = .error e →
        firstSuccess forward
          (target :: ch.nodes.filter (fun n => decide (n ≠ target))) = none →
        routeRequest H forward ch rid = .error (.allFailed e)) ∧
    (target :: attemptsOn forward (ch.nodes.filter (fun n => decide (n ≠ target)))).Nodup ∧
    (target :: attemptsOn forward (ch.nodes.filter (fun n => decide (n ≠ target)))).length ≤
      ch.nodes.length := by
  have htmem : target ∈ ch.nodes := getNode_mem_nodes H hinv htgt
  have hnodes : ch.nodes.Nodup := hinv.1
  have hroute : routeRequest H forward ch rid =
      match forward target with
      | .ok r => .ok r
      | .error e => tryOthers forward target e ch.nodes := by
    unfold routeRequest
    rw [htgt]
  have hond : (ch.nodes.filter (fun n => decide (n ≠ target))).Nodup := hnodes.filter _
  have hatts : (attemptsOn forward (ch.nodes.filter (fun n => decide (n ≠ target)))).Sublist
      (ch.nodes.filter (fun n => decide (n ≠ target))) := attemptsOn_sublist forward _
  refine ⟨?_, ?_, ?_, ?_⟩
  · intro r
    rw [hroute]
    cases hft : forward target with
    | ok r₀ =>
      have hfs : firstSuccess forward
          (target :: ch.nodes.filter (fun n => decide (n ≠ target))) = some r₀ := by
        unfold firstSuccess
        rw [List.findSome?_cons]
        simp [hft, Except.toOption]
      rw [hfs]
      constructor <;> intro h <;> simp_all
    | error e₀ =>
      show tryOthers forward target e₀ ch.nodes = Except.ok r ↔ _
      rw [tryOthers_eq forward target e₀ ch.nodes]
      have hfs : firstSuccess forward
          (target :: ch.nodes.filter (fun n => decide (n ≠ target))) =
          firstSuccess forward (ch.nodes.filter (fun n => decide (n ≠ target))) := by
        unfold firstSuccess
        rw [List.findSome?_cons]
        simp [hft, Except.toOption]
      rw [hfs]
      cases hfs2 : firstSuccess forward (ch.nodes.filter (fun n => decide (n ≠ target))) with
      | some r' => simp
      | none => simp
  · intro e hft hfs
    rw [hroute, hft]
    show tryOthers forward target e ch.nodes = Except.error (RouteError.allFailed e)
    rw [tryOthers_eq forward target e ch.nodes]
    have : firstSuccess forward (ch.nodes.filter (fun n => decide (n ≠ target))) = none := by
      have h2 : firstSuccess forward
          (target :: ch.nodes.filter (fun n => decide (n ≠ target))) =
          firstSuccess forward (ch.nodes.filter (fun n => decide (n ≠ target))) := by
        unfold firstSuccess
        rw [List.findSome?_cons]
        simp [hft, Except.toOption]
      rw [← h2, hfs]
    rw [this]
  · refine List.nodup_cons.2 ⟨?_, hatts.nodup hond⟩
    intro h
    have h2 := hatts.subset h
    rw [List.mem_filter] at h2
    simp at h2
  · have hlt : (ch.nodes.filter (fun n => decide (n ≠ target))).length < ch.nodes.length := by
      rw [List.length_filter_lt_length_iff_exists]
      exact ⟨target, htmem, by simp⟩
    have hle := hatts.length_le
    simp only [List.length_cons]
    omega

/-- Witness for C7 at a concrete instance: a ring over A and B, primary A
failing, failover B succeeding. -/
theorem route_failover_witness :
    (RingInv hashC (buildRing hashC 1 ["A", "B"]) ∧
      (buildRing hashC 1 ["A", "B"]).getNode hashC "req_0" = some "A") ∧
    (routeRequest hashC
        (fun n => if n = "A" then (.error "down" : Except String String) else .ok n)
        (buildRing hashC 1 ["A", "B"]) "req_0" = .ok "B" ↔
      firstSuccess (fun n => if n = "A" then (.error "down" : Except String String) else .ok n)
        ("A" :: (buildRing hashC 1 ["A", "B"]).nodes.filter (fun n => decide (n ≠ "A"))) =
        some "B") :=
  ⟨⟨by decide, by decide⟩,
    (route_failover hashC
      (fun n => if n = "A" then (.error "down" : Except String String) else .ok n)
      (buildRing hashC 1 ["A", "B"]) "req_0" "A" (by decide) (by decide)).1 "B"⟩

theorem vKeysInj_mono {H : String → Nat} {V : Nat} {ns ms : List String}
    (hsub : ∀ x ∈ ns, x ∈ ms) (hinj : VKeysInj H V ms) : VKeysInj H V ns :=
  fun n hn m hm i hi j hj => hinj n (hsub n hn) m (hsub m hm) i hi j hj

/-- Core of ring stability: extending a ring (with unique keys) by extra
entries all valued e either leaves a lookup unchanged or moves it to e. -/
theorem lookupSpec_extend (H : String → Nat) (key : String) (V₁ V₂ : Nat)
    (N₁ N₂ : List String) (R₁ Re : List (Nat × String)) (e : String)
    (hval : ∀ p ∈ Re, p.2 = e)
    (hnd : ((R₁ ++ Re).map Prod.fst).Nodup) :
    lookupSpec H ⟨V₂, R₁ ++ Re,
        List.insertionSort (· ≤ ·) ((R₁ ++ Re).map Prod.fst), N₂⟩ key ≠
      lookupSpec H ⟨V₁, R₁, List.insertionSort (· ≤ ·) (R₁.map Prod.fst), N₁⟩ key →
    lookupSpec H ⟨V₂, R₁ ++ Re,
        List.insertionSort (· ≤ ·) ((R₁ ++ Re).map Prod.fst), N₂⟩ key = some e := by
  intro hne
  have hmapapp : (R₁ ++ Re).map Prod.fst = R₁.map Prod.fst ++ Re.map Prod.fst :=
    List.map_append _ _ _
  have hAnd : (R₁.map Prod.fst).Nodup := by
    rw [hmapapp, List.nodup_append] at hnd
    exact hnd.1
  have hs₁ : (List.insertionSort (· ≤ ·) (R₁.map Prod.fst)).Sorted (· ≤ ·) :=
    List.sorted_insertionSort _ _
  have hs₂ : (List.insertionSort (· ≤ ·) ((R₁ ++ Re).map Prod.fst)).Sorted (· ≤ ·) :=
    List.sorted_insertionSort _ _
  have hmem₁ : ∀ x, x ∈ List.insertionSort (· ≤ ·) (R₁.map Prod.fst) ↔
      x ∈ R₁.map Prod.fst := fun x => (List.perm_insertionSort _ _).mem_iff
  have hmem₂ : ∀ x, x ∈ List.insertionSort (· ≤ ·) ((R₁ ++ Re).map Prod.fst) ↔
      x ∈ (R₁ ++ Re).map Prod.fst := fun x => (List.perm_insertionSort _ _).mem_iff
  cases hc₂ : chooseKey (List.insertionSort (· ≤ ·) ((R₁ ++ Re).map Prod.fst)) (H key) with
  | none =>
    exfalso
    have hnil₂ : List.insertionSort (· ≤ ·) ((R₁ ++ Re).map Prod.fst) = [] :=
      chooseKey_eq_none hc₂
    have happnil : (R₁ ++ Re).map Prod.fst = [] := by
      have hp := List.perm_insertionSort (· ≤ ·) ((R₁ ++ Re).map Prod.fst)
      rw [hnil₂] at hp
      exact (hp.symm).eq_nil
    have hAnil : R₁.map Prod.fst = [] := by
      rw [hmapapp] at happnil
      exact (List.append_eq_nil.1 happnil).1
    have hnil₁ : List.insertionSort (· ≤ ·) (R₁.map Prod.fst) = [] := by
      rw [hAnil]
      rfl
    apply hne
    rw [lookupSpec_of_chooseKey_none H _ key hc₂,
      lookupSpec_of_chooseKey_none H _ key (by rw [hnil₁]; rfl)]
  | some m' =>
    obtain ⟨hm'mem, hm'prop⟩ := chooseKey_cases hs₂ hc₂
    rw [lookupSpec_of_chooseKey_some H _ key hc₂] at hne ⊢
    by_cases hmA : m' ∈ R₁.map Prod.fst
    · exfalso
      have hck₁ : chooseKey (List.insertionSort (· ≤ ·) (R₁.map Prod.fst)) (H key) =
          some m' := by
        have hlift : ∀ y, y ∈ List.insertionSort (· ≤ ·) (R₁.map Prod.fst) →
            y ∈ List.insertionSort (· ≤ ·) ((R₁ ++ Re).map Prod.fst) := by
          intro y hy
          rw [hmem₂, hmapapp]
          exact List.mem_append_left _ ((hmem₁ y).1 hy)
        rcases hm'prop with ⟨hlt, hmin⟩ | ⟨hnab, hmin⟩
        · exact chooseKey_eq_some_of_above hs₁ ((hmem₁ m').2 hmA) hlt
            (fun y hy hhy => hmin y (hlift y hy) hhy)
        · exact chooseKey_eq_some_of_wrap hs₁ ((hmem₁ m').2 hmA)
            (fun y hy => hnab y (hlift y hy)) (fun y hy => hmin y (hlift y hy))
      rw [lookupSpec_of_chooseKey_some H _ key hck₁] at hne
      exact hne (lookup_append_left_of_mem hmA)
    · have hmE : m' ∈ Re.map Prod.fst := by
        have h2 := (hmem₂ m').1 hm'mem
        rw [hmapapp] at h2
        rcases List.mem_append.1 h2 with h | h
        · exact absurd h hmA
        · exact h
      rw [lookup_append_right_of_fresh hmA]
      exact lookup_const_value Re m' hval hmE

/-- C4: adding a new endpoint e to a ring built from a set not containing
e relocates lookups only onto e: any key whose lookup changes after
add_node(e) now resolves to e (collision-freeness of the hash on the
involved virtual keys assumed, as the source does for md5). -/
theorem add_node_relocates_only_to_new (H : String → Nat) (V : Nat) (l : List String)
    (e : String) (hnd : l.Nodup) (he : e ∉ l) (hinj : VKeysInj H V (l ++ [e]))
    (key : String) :
    ((buildRing H V l).addNode H e).getNode H key ≠ (buildRing H V l).getNode H key →
    ((buildRing H V l).addNode H e).getNode H key = some e := by
  have hnd' : (l ++ [e]).Nodup := by
    rw [List.nodup_append]
    refine ⟨hnd, List.nodup_singleton e, ?_⟩
    intro a ha hae
    rw [List.mem_singleton] at hae
    exact he (hae ▸ ha)
  have hinjl : VKeysInj H V l := vKeysInj_mono (fun x hx => List.mem_append_left _ hx) hinj
  have hbuild : (buildRing H V l).addNode H e = buildRing H V (l ++ [e]) := by
    rw [buildRing, buildRing, List.foldl_append]
    rfl
  rw [hbuild, buildRing_eq H V l hnd hinjl, buildRing_eq H V (l ++ [e]) hnd' hinj]
  have hR₂ : (l ++ [e]).flatMap (vEntries H V) =
      l.flatMap (vEntries H V) ++ vEntries H V e := by
    rw [List.flatMap_append]
    simp
  rw [hR₂]
  have hg₂ : (⟨V, l.flatMap (vEntries H V) ++ vEntries H V e,
      List.insertionSort (· ≤ ·)
        ((l.flatMap (vEntries H V) ++ vEntries H V e).map Prod.fst),
      l ++ [e]⟩ : ConsistentHash).getNode H key =
      lookupSpec H ⟨V, l.flatMap (vEntries H V) ++ vEntries H V e,
        List.insertionSort (· ≤ ·)
          ((l.flatMap (vEntries H V) ++ vEntries H V e).map Prod.fst),
        l ++ [e]⟩ key :=
    getNode_eq_lookupSpec H _ key (List.sorted_insertionSort _ _)
      (List.perm_insertionSort _ _)
  have hg₁ : (⟨V, l.flatMap (vEntries H V),
      List.insertionSort (· ≤ ·) ((l.flatMap (vEntries H V)).map Prod.fst),
      l⟩ : ConsistentHash).getNode H key =
      lookupSpec H ⟨V, l.flatMap (vEntries H V),
        List.insertionSort (· ≤ ·) ((l.flatMap (vEntries H V)).map Prod.fst), l⟩ key :=
    getNode_eq_lookupSpec H _ key (List.sorted_insertionSort _ _)
      (List.perm_insertionSort _ _)
  rw [hg₂, hg₁]
  apply lookupSpec_extend H key V V l (l ++ [e]) (l.flatMap (vEntries H V))
    (vEntries H V e) e
  · intro p hp
    have hp' : p ∈ (List.range V).map (fun i => (hashVirtual H e i, e)) := hp
    rcases List.mem_map.1 hp' with ⟨i, hi, hpe⟩
    rw [← hpe]
  · have h0 := flatMap_vKeys_nodup H V (l ++ [e]) hnd' hinj
    rw [List.flatMap_append] at h0
    rw [List.map_append, map_fst_flatMap_vEntries, map_fst_vEntries]
    simpa using h0

/-- Witness for C4 at a concrete instance: adding B to the ring over A
moves the key whose lookup changes onto B. -/
theorem add_node_relocates_witness :
    ((["A"] : List String).Nodup ∧ "B" ∉ (["A"] : List String) ∧
      VKeysInj hashC 1 (["A"] ++ ["B"]) ∧
      ((buildRing hashC 1 ["A"]).addNode hashC "B").getNode hashC "A#1" ≠
        (buildRing hashC 1 ["A"]).getNode hashC "A#1") ∧
    ((buildRing hashC 1 ["A"]).addNode hashC "B").getNode hashC "A#1" = some "B" :=
  ⟨⟨by decide, by decide, by decide, by decide⟩,
    add_node_relocates_only_to_new hashC 1 ["A"] "B" (by decide) (by decide) (by decide)
      "A#1" (by decide)⟩

theorem length_flatMap_vEntries (H : String → Nat) (V : Nat) :
    ∀ ns : List String, (ns.flatMap (vEntries H V)).length = V * ns.length
  | [] => by simp
  | n :: rest => by
    rw [List.flatMap_cons, List.length_append, length_flatMap_vEntries H V rest]
    have h1 : (vEntries H V n).length = V := by
      rw [vEntries, List.length_map, List.length_range]
    rw [h1, List.length_cons, Nat.mul_succ]
    omega

/-- A non-empty invariant ring always answers lookups. -/
theorem lookupSpec_isSome (H : String → Nat) (ch : ConsistentHash) (key : String)
    (hs : ch.sortedKeys.Sorted (· ≤ ·)) (hp : ch.sortedKeys.Perm (ch.ring.map Prod.fst))
    (hne : ch.ring ≠ []) : (lookupSpec H ch key).isSome := by
  cases hck : chooseKey ch.sortedKeys (H key) with
  | none =>
    exfalso
    have hS := chooseKey_eq_none hck
    rw [hS] at hp
    exact hne (List.map_eq_nil_iff.1 (hp.symm.eq_nil))
  | some k =>
    rw [lookupSpec_of_chooseKey_some H ch key hck]
    have hkS : k ∈ ch.sortedKeys := (chooseKey_cases hs hck).1
    have hkkeys : k ∈ ch.ring.map Prod.fst := hp.subset hkS
    rw [List.lookup_isSome_iff]
    rcases List.mem_map.1 hkkeys with ⟨p, hpmem, hpk⟩
    exact ⟨p, hpmem, by simp [hpk]⟩

theorem addNode_noop (H : String → Nat) {ch : ConsistentHash} {n : String}
    (h : n ∈ ch.nodes) : ch.addNode H n = ch := by
  unfold ConsistentHash.addNode
  rw [if_pos h]

theorem removeNode_noop (H : String → Nat) {ch : ConsistentHash} {n : String}
    (h : n ∉ ch.nodes) : ch.removeNode H n = ch := by
  unfold ConsistentHash.removeNode
  rw [if_neg h]

theorem mem_nodes_addNode (H : String → Nat) (ch : ConsistentHash) (n : String) :
    n ∈ (ch.addNode H n).nodes := by
  unfold ConsistentHash.addNode
  by_cases h : n ∈ ch.nodes
  · rw [if_pos h]
    exact h
  · rw [if_neg h]
    simp

theorem not_mem_nodes_removeNode (H : String → Nat) (ch : ConsistentHash) (n : String) :
    n ∉ (ch.removeNode H n).nodes := by
  unfold ConsistentHash.removeNode
  by_cases h : n ∈ ch.nodes
  · rw [if_pos h]
    simp
  · rw [if_neg h]
    exact h

theorem opsInv_empty (H : String → Nat) (V : Nat) (N : List String) :
    OpsInv H V N (emptyRing V) := by
  refine ⟨rfl, List.nodup_nil, ?_, ?_, rfl⟩
  · intro n hn
    cases hn
  · simp [emptyRing]

/-- add_node preserves the strong invariant. -/
theorem opsInv_addNode (H : String → Nat) (V : Nat) (N : List String) {ch : ConsistentHash}
    (n : String) (hinj : VKeysInj H V N) (hch : OpsInv H V N ch) (hnN : n ∈ N) :
    OpsInv H V N (ch.addNode H n) := by
  obtain ⟨hV, hnd, hsub, hring, hsk⟩ := hch
  by_cases hn : n ∈ ch.nodes
  · rw [addNode_noop H hn]
    exact ⟨hV, hnd, hsub, hring, hsk⟩
  · have hkeysperm : (ch.ring.map Prod.fst).Perm (ch.nodes.flatMap (vKeys H V)) := by
      have h2 := hring.map Prod.fst
      rwa [map_fst_flatMap_vEntries] at h2
    have hvnd : (vKeys H V n).Nodup := by
      refine (List.nodup_range V).map_on ?_
      intro i hi j hj hij
      exact (hinj n hnN n hnN i hi j hj hij).2
    have hvfresh : ∀ k ∈ vKeys H V n, k ∉ ch.ring.map Prod.fst := by
      intro k hk hmem
      have h2 : k ∈ ch.nodes.flatMap (vKeys H V) := hkeysperm.subset hmem
      rcases List.mem_flatMap.1 h2 with ⟨m, hm, hkm⟩
      rcases List.mem_map.1 hkm with ⟨j, hj, hjk⟩
      rcases List.mem_map.1 hk with ⟨i, hi, hik⟩
      have heq : hashVirtual H n i = hashVirtual H m j := by rw [hik, ← hjk]
      have := hinj n hnN m (hsub m hm) i hi j hj heq
      exact hn (this.1 ▸ hm)
    have hstep := addNode_fresh H ch n hn (by rw [hV]; exact hvnd) (by rw [hV]; exact hvfresh)
    rw [hstep, hV]
    refine ⟨rfl, ?_, ?_, ?_, rfl⟩
    · rw [List.nodup_append]
      exact ⟨hnd, List.nodup_singleton n, by simpa using hn⟩
    · intro m hm
      rcases List.mem_append.1 hm with h | h
      · exact hsub m h
      · rw [List.mem_singleton] at h
        exact h ▸ hnN
    · have h2 : (ch.nodes ++ [n]).flatMap (vEntries H V) =
          ch.nodes.flatMap (vEntries H V) ++ vEntries H V n := by
        rw [List.flatMap_append]
        simp
      rw [h2]
      exact hring.append_right _

/-- Filtering out one member's virtual keys from the assembled entries
removes exactly that member's block. -/
theorem filter_flatMap_vEntries (H : String → Nat) (V : Nat) (N : List String) (n : String)
    (hinj : VKeysInj H V N) (hnN : n ∈ N) :
    ∀ ns : List String, (∀ m ∈ ns, m ∈ N) →
      (ns.flatMap (vEntries H V)).filter (fun p => decide (p.1 ∉ vKeys H V n)) =
        (ns.filter (fun m => decide (m ≠ n))).flatMap (vEntries H V)
  | [], _ => rfl
  | m :: rest, hmem => by
    have hrest := filter_flatMap_vEntries H V N n hinj hnN rest
      (fun x hx => hmem x (List.mem_cons_of_mem m hx))
    rw [List.flatMap_cons, List.filter_append, hrest, List.filter_cons]
    by_cases hmn : m = n
    · subst hmn
      have hblock : (vEntries H V m).filter (fun p => decide (p.1 ∉ vKeys H V m)) = [] := by
        rw [List.filter_eq_nil_iff]
        intro p hp
        have hp' : p ∈ (List.range V).map (fun i => (hashVirtual H m i, m)) := hp
        rcases List.mem_map.1 hp' with ⟨i, hi, hpe⟩
        simp only [decide_eq_true_eq, not_not, Decidable.not_not]
        rw [← hpe]
        exact List.mem_map.2 ⟨i, hi, rfl⟩
      rw [hblock]
      simp
    · have hblock : (vEntries H V m).filter (fun p => decide (p.1 ∉ vKeys H V n)) =
          vEntries H V m := by
        rw [List.filter_eq_self]
        intro p hp
        have hp' : p ∈ (List.range V).map (fun i => (hashVirtual H m i, m)) := hp
        rcases List.mem_map.1 hp' with ⟨i, hi, hpe⟩
        simp only [decide_eq_true_eq]
        intro hmemk
        rcases List.mem_map.1 hmemk with ⟨j, hj, hjk⟩
        have heq : hashVirtual H m i = hashVirtual H n j := by
          rw [← hpe] at hjk
          exact hjk.symm
        exact hmn (hinj m (hmem m (List.mem_cons_self m rest)) n hnN i hi j hj heq).1
      rw [hblock]
      simp [hmn]

/-- remove_node preserves the strong invariant. -/
theorem opsInv_removeNode (H : String → Nat) (V : Nat) (N : List String) {ch : ConsistentHash}
    (n : String) (hinj : VKeysInj H V N) (hch : OpsInv H V N ch) (hnN : n ∈ N) :
    OpsInv H V N (ch.removeNode H n) := by
  obtain ⟨hV, hnd, hsub, hring, hsk⟩ := hch
  by_cases hn : n ∈ ch.nodes
  · unfold ConsistentHash.removeNode
    rw [if_pos hn, removeNode_fold H ch n, hV]
    refine ⟨rfl, hnd.filter _, ?_, ?_, rfl⟩
    · intro m hm
      exact hsub m (List.mem_filter.1 hm).1
    · have h1 := hring.filter (fun p => decide (p.1 ∉ vKeys H V n))
      rw [filter_flatMap_vEntries H V N n hinj hnN ch.nodes hsub] at h1
      exact h1
  · rw [removeNode_noop H hn]
    exact ⟨hV, hnd, hsub, hring, hsk⟩

/-- Any operation sequence over names in N preserves the strong
invariant. -/
theorem opsInv_applyOps (H : String → Nat) (V : Nat) (N : List String)
    (hinj : VKeysInj H V N) :
    ∀ (ops : List RingOp) (ch : ConsistentHash), OpsInv H V N ch →
      (∀ m ∈ opNodes ops, m ∈ N) → OpsInv H V N (applyOps H ch ops)
  | [], _, hch, _ => hch
  | .add n :: rest, ch, hch, hN =>
    opsInv_applyOps H V N hinj rest _
      (opsInv_addNode H V N n hinj hch (hN n (by rw [opNodes]; exact List.mem_cons_self _ _)))
      (fun m hm => hN m (by rw [opNodes]; exact List.mem_cons_of_mem _ hm))
  | .remove n :: rest, ch, hch, hN =>
    opsInv_applyOps H V N hinj rest _
      (opsInv_removeNode H V N n hinj hch (hN n (by rw [opNodes]; exact List.mem_cons_self _ _)))
      (fun m hm => hN m (by rw [opNodes]; exact List.mem_cons_of_mem _ hm))

/-- C9: after any sequence of add_node and remove_node operations (each of
which is idempotent) starting from the empty ring, the ring satisfies:
sortedKeys has exactly V entries per member endpoint, sortedKeys is
strictly increasing, and get_node returns an endpoint if and only if the
member set is non-empty (V at least one and hash collision-freeness on the
mentioned nodes assumed). -/
theorem ring_ops_invariants (H : String → Nat) (V : Nat) (ops : List RingOp)
    (hV : 1 ≤ V) (hinj : VKeysInj H V (opNodes ops)) :
    ((applyOps H (emptyRing V) ops).sortedKeys.length =
        V * (applyOps H (emptyRing V) ops).nodes.length ∧
      (applyOps H (emptyRing V) ops).sortedKeys.Sorted (· < ·) ∧
      (∀ key : String, ((applyOps H (emptyRing V) ops).getNode H key).isSome ↔
        (applyOps H (emptyRing V) ops).nodes ≠ [])) ∧
    (∀ (ch : ConsistentHash) (n : String), (ch.addNode H n).addNode H n = ch.addNode H n) ∧
    (∀ (ch : ConsistentHash) (n : String),
      (ch.removeNode H n).removeNode H n = ch.removeNode H n) := by
  have hops := opsInv_applyOps H V (opNodes ops) hinj ops (emptyRing V)
    (opsInv_empty H V (opNodes ops)) (fun m hm => hm)
  obtain ⟨hVeq, hnd, hsub, hring, hsk⟩ := hops
  have hsorted : (applyOps H (emptyRing V) ops).sortedKeys.Sorted (· ≤ ·) := by
    rw [hsk]
    exact List.sorted_insertionSort _ _
  have hperm : (applyOps H (emptyRing V) ops).sortedKeys.Perm
      ((applyOps H (emptyRing V) ops).ring.map Prod.fst) := by
    rw [hsk]
    exact List.perm_insertionSort _ _
  have hkeysnd : ((applyOps H (emptyRing V) ops).ring.map Prod.fst).Nodup := by
    have h1 : ((applyOps H (emptyRing V) ops).ring.map Prod.fst).Perm
        ((applyOps H (emptyRing V) ops).nodes.flatMap (vKeys H V)) := by
      have h2 := hring.map Prod.fst
      rwa [map_fst_flatMap_vEntries] at h2
    exact h1.nodup_iff.2
      (flatMap_vKeys_nodup H V _ hnd (vKeysInj_mono hsub hinj))
  refine ⟨⟨?_, ?_, ?_⟩, ?_, ?_⟩
  · rw [(hperm.length_eq), List.length_map, hring.length_eq, length_flatMap_vEntries]
  · have hnd2 : (applyOps H (emptyRing V) ops).sortedKeys.Nodup :=
      hperm.nodup_iff.2 hkeysnd
    exact (hsorted.and hnd2).imp (fun h => lt_of_le_of_ne h.1 h.2)
  · intro key
    cases hnodes : (applyOps H (emptyRing V) ops).nodes with
    | nil =>
      have hrnil : (applyOps H (emptyRing V) ops).ring = [] := by
        have h2 := hring
        rw [hnodes] at h2
        simpa using h2.eq_nil
      have : (applyOps H (emptyRing V) ops).getNode H key = none := by
        unfold ConsistentHash.getNode
        rw [if_pos (by rw [List.isEmpty_iff]; exact hrnil)]
      simp [this]
    | cons m rest =>
      have hrne : (applyOps H (emptyRing V) ops).ring ≠ [] := by
        intro h
        have h2 : ((applyOps H (emptyRing V) ops).ring).length = 0 := by rw [h]; rfl
        rw [hring.length_eq, length_flatMap_vEntries, hnodes] at h2
        simp only [List.length_cons, Nat.mul_succ] at h2
        omega
      have h3 : ((applyOps H (emptyRing V) ops).getNode H key).isSome := by
        rw [getNode_eq_lookupSpec H _ key hsorted hperm]
        exact lookupSpec_isSome H _ key hsorted hperm hrne
      simp [h3, hnodes]
  · intro ch n
    exact addNode_noop H (mem_nodes_addNode H ch n)
  · intro ch n
    exact removeNode_noop H (not_mem_nodes_removeNode H ch n)

/-- Witness for C9 at a concrete instance: add A, add B, remove A, with
V equal one. -/
theorem ring_ops_invariants_witness :
    (1 ≤ 1 ∧ VKeysInj hashC 1 (opNodes [.add "A", .add "B", .remove "A"])) ∧
    ((applyOps hashC (emptyRing 1) [.add "A", .add "B", .remove "A"]).sortedKeys.length =
        1 * (applyOps hashC (emptyRing 1) [.add "A", .add "B", .remove "A"]).nodes.length ∧
      (applyOps hashC (emptyRing 1)
        [.add "A", .add "B", .remove "A"]).sortedKeys.Sorted (· < ·) ∧
      (∀ key : String,
        ((applyOps hashC (emptyRing 1) [.add "A", .add "B", .remove "A"]).getNode
            hashC key).isSome ↔
          (applyOps hashC (emptyRing 1) [.add "A", .add "B", .remove "A"]).nodes ≠ [])) ∧
    (∀ (ch : ConsistentHash) (n : String),
      (ch.addNode hashC n).addNode hashC n = ch.addNode hashC n) ∧
    (∀ (ch : ConsistentHash) (n : String),
      (ch.removeNode hashC n).removeNode hashC n = ch.removeNode hashC n) :=
  ⟨⟨le_refl 1, by decide⟩,
    ring_ops_invariants hashC 1 [.add "A", .add "B", .remove "A"] (le_refl 1) (by decide)⟩

/-- Witness for C5 at a concrete instance. -/
theorem lookup_spec_and_empty_witness :
    RingInv hashC (buildRing hashC 1 ["A", "B"]) ∧
    ((buildRing hashC 1 ["A", "B"]).getNode hashC "req_0" =
        lookupSpec hashC (buildRing hashC 1 ["A", "B"]) "req_0" ∧
      (emptyRing 1).getNode hashC "req_0" = none ∧
      routeRequest hashC (fun n => (.ok n : Except String String)) (emptyRing 1) "x" =
        .error .noWorkers) :=
  ⟨by decide,
    lookup_spec_and_empty hashC (buildRing hashC 1 ["A", "B"]) "req_0" 1
      (fun n => (.ok n : Except String String)) "x" (by decide)⟩

/-! ## Batch processor theorems -/

theorem processBatchRun_nil {α ρ : Type} (fn : List α → Except String (List ρ))
    (t : Bool) (m : BatchMetrics) : processBatchRun fn [] t m = ([], m) := rfl

theorem processBatchRun_ok_writes {α ρ : Type} (fn : List α → Except String (List ρ))
    (batch : List α) (t : Bool) (m : BatchMetrics) (R : List ρ)
    (hok : fn batch = .ok R) (hne : batch ≠ []) :
    (processBatchRun fn batch t m).1 =
      (List.range batch.length).map (fun i =>
        match R[i]? with
        | some r => [SlotMsg.result r]
        | none => []) := by
  unfold processBatchRun
  rw [if_neg (by simpa [List.isEmpty_iff] using hne), hok]

theorem processBatchRun_error_writes {α ρ : Type} (fn : List α → Except String (List ρ))
    (batch : List α) (t : Bool) (m : BatchMetrics) (e : String)
    (herr : fn batch = .error e) (hne : batch ≠ []) :
    (processBatchRun fn batch t m).1 = batch.map (fun _ => [SlotMsg.error e]) := by
  unfold processBatchRun
  rw [if_neg (by simpa [List.isEmpty_iff] using hne), herr]

theorem processBatchRun_metrics_ok {α ρ : Type} (fn : List α → Except String (List ρ))
    (batch : List α) (t : Bool) (m : BatchMetrics) (R : List ρ)
    (hok : fn batch = .ok R) (hne : batch ≠ []) :
    (processBatchRun fn batch t m).2.total_batches = m.total_batches + 1 ∧
    (processBatchRun fn batch t m).2.total_requests = m.total_requests ∧
    (processBatchRun fn batch t m).2.timeout_batches =
      (if t then m.timeout_batches + 1 else m.timeout_batches) ∧
    (processBatchRun fn batch t m).2.full_batches =
      (if t then m.full_batches else m.full_batches + 1) := by
  unfold processBatchRun
  rw [if_neg (by simpa [List.isEmpty_iff] using hne), hok]
  cases t <;> simp

theorem processBatchRun_metrics_error {α ρ : Type} (fn : List α → Except String (List ρ))
    (batch : List α) (t : Bool) (m : BatchMetrics) (e : String)
    (herr : fn batch = .error e) :
    (processBatchRun fn batch t m).2 = m := by
  unfold processBatchRun
  by_cases hb : batch.isEmpty
  · rw [if_pos hb]
  · rw [if_neg hb, herr]

/-- C1: for every batch handed to the compute function by _process_batch,
if the compute function returns a result list of the batch's length then
the i-th completion slot is written exactly once, with the i-th result
(the slot write lists are exactly the singleton results, index aligned);
if the compute function raises, every slot of the batch is written exactly
once with that same error. -/
theorem process_batch_slot_writes {α ρ : Type} (fn : List α → Except String (List ρ))
    (batch : List α) (t : Bool) (m : BatchMetrics) :
    (∀ R : List ρ, fn batch = .ok R → R.length = batch.length →
      (processBatchRun fn batch t m).1 = R.map (fun r => [SlotMsg.result r])) ∧
    (∀ e : String, fn batch = .error e →
      (processBatchRun fn batch t m).1 = batch.map (fun _ => [SlotMsg.error e])) ∧
    (∀ R : List ρ, fn batch = .ok R → R.length = batch.length →
      ∀ w ∈ (processBatchRun fn batch t m).1, w.length = 1) ∧
    (∀ e : String, fn batch = .error e →
      ∀ w ∈ (processBatchRun fn batch t m).1, w.length = 1) := by
  have hok : ∀ R : List ρ, fn batch = .ok R → R.length = batch.length →
      (processBatchRun fn batch t m).1 = R.map (fun r => [SlotMsg.result r]) := by
    intro R hfn hlen
    by_cases hne : batch = []
    · subst hne
      rw [processBatchRun_nil]
      rw [List.length_nil] at hlen
      rw [List.eq_nil_of_length_eq_zero hlen]
      rfl
    · rw [processBatchRun_ok_writes fn batch t m R hfn hne]
      apply List.ext_getElem
      · simp [hlen]
      · intro i h1 h2
        have hiR : i < R.length := by simpa using h2
        simp only [List.getElem_map, List.getElem_range]
        rw [List.getElem?_eq_getElem hiR]
  have herr : ∀ e : String, fn batch = .error e →
      (processBatchRun fn batch t m).1 = batch.map (fun _ => [SlotMsg.error e]) := by
    intro e hfn
    by_cases hne : batch = []
    · subst hne
      rfl
    · exact processBatchRun_error_writes fn batch t m e hfn hne
  refine ⟨hok, herr, ?_, ?_⟩
  · intro R hfn hlen w hw
    rw [hok R hfn hlen] at hw
    rcases List.mem_map.1 hw with ⟨r, -, rfl⟩
    rfl
  · intro e hfn w hw
    rw [herr e hfn] at hw
    rcases List.mem_map.1 hw with ⟨r, -, rfl⟩
    rfl

/-- Witness for C1 at a concrete instance: a two-request batch under a
successful compute function and under a raising one. -/
theorem process_batch_slot_writes_witness :
    ((fun l => (.ok (l.map (fun r => "res_" ++ r)) : Except String (List String)))
        ["x", "y"] = .ok ["res_x", "res_y"] ∧
      (["res_x", "res_y"] : List String).length = (["x", "y"] : List String).length ∧
      (fun _ => (.error "boom" : Except String (List String))) (["x", "y"] : List String) =
        .error "boom") ∧
    (processBatchRun (fun l => (.ok (l.map (fun r => "res_" ++ r)) :
        Except String (List String))) ["x", "y"] false {}).1 =
      [[SlotMsg.result "res_x"], [SlotMsg.result "res_y"]] ∧
    (processBatchRun (fun _ => (.error "boom" : Except String (List String)))
        ["x", "y"] false {}).1 =
      [[SlotMsg.error "boom"], [SlotMsg.error "boom"]] := by
  refine ⟨⟨rfl, rfl, rfl⟩, ?_, ?_⟩
  · rw [(process_batch_slot_writes (fun l => (.ok (l.map (fun r => "res_" ++ r)) :
        Except String (List String))) ["x", "y"] false {}).1 ["res_x", "res_y"] rfl rfl]
    rfl
  · rw [(process_batch_slot_writes (fun _ => (.error "boom" : Except String (List String)))
        ["x", "y"] false {}).2.1 "boom" rfl]
    rfl

/-- C10: the metrics maintain total batches equal to full plus timeout
batches at every point of the run; a successfully computed non-empty batch
increments total batches and exactly one of full or timeout batches (by
the trigger flag), and a batch whose compute raises leaves the whole
metrics record unchanged. -/
theorem metrics_conservation {α ρ : Type} (fn : List α → Except String (List ρ)) :
    (∀ l : List (List α × Bool),
      (runBatches fn {} l).total_batches =
        (runBatches fn {} l).full_batches + (runBatches fn {} l).timeout_batches) ∧
    (∀ (b : List α) (t : Bool) (m : BatchMetrics) (R : List ρ), b ≠ [] → fn b = .ok R →
      (processBatchRun fn b t m).2.total_batches = m.total_batches + 1 ∧
      (processBatchRun fn b t m).2.timeout_batches =
        (if t then m.timeout_batches + 1 else m.timeout_batches) ∧
      (processBatchRun fn b t m).2.full_batches =
        (if t then m.full_batches else m.full_batches + 1)) ∧
    (∀ (b : List α) (t : Bool) (m : BatchMetrics) (e : String), fn b = .error e →
      (processBatchRun fn b t m).2 = m) := by
  refine ⟨?_, ?_, ?_⟩
  · have hstep : ∀ (b : List α) (t : Bool) (m : BatchMetrics),
        m.total_batches = m.full_batches + m.timeout_batches →
        (processBatchRun fn b t m).2.total_batches =
          (processBatchRun fn b t m).2.full_batches +
            (processBatchRun fn b t m).2.timeout_batches := by
      intro b t m hm
      by_cases hne : b = []
      · subst hne
        rw [processBatchRun_nil]
        exact hm
      · cases hfn : fn b with
        | ok R =>
          obtain ⟨h1, -, h3, h4⟩ := processBatchRun_metrics_ok fn b t m R hfn hne
          rw [h1, h3, h4]
          cases t <;> simp <;> omega
        | error e =>
          rw [processBatchRun_metrics_error fn b t m e hfn]
          exact hm
    have hmain : ∀ (l : List (List α × Bool)) (m : BatchMetrics),
        m.total_batches = m.full_batches + m.timeout_batches →
        (runBatches fn m l).total_batches =
          (runBatches fn m l).full_batches + (runBatches fn m l).timeout_batches := by
      intro l
      induction l with
      | nil => intro m hm; exact hm
      | cons bt rest ih =>
        intro m hm
        exact ih _ (hstep bt.1 bt.2 m hm)
    intro l
    exact hmain l {} rfl
  · intro b t m R hne hfn
    obtain ⟨h1, -, h3, h4⟩ := processBatchRun_metrics_ok fn b t m R hfn hne
    exact ⟨h1, h3, h4⟩
  · intro b t m e hfn
    exact processBatchRun_metrics_error fn b t m e hfn

/-- Witness for C10 at a concrete instance. -/
theorem metrics_conservation_witness :
    ((["x"] : List String) ≠ [] ∧
      (fun l => (.ok l : Except String (List String))) ["x"] = .ok ["x"] ∧
      (fun _ => (.error "boom" : Except String (List String))) (["y"] : List String) =
        .error "boom") ∧
    (runBatches (fun l => (.ok l : Except String (List String))) {}
        [(["x"], true), (["y"], false)]).total_batches =
      (runBatches (fun l => (.ok l : Except String (List String))) {}
        [(["x"], true), (["y"], false)]).full_batches +
      (runBatches (fun l => (.ok l : Except String (List String))) {}
        [(["x"], true), (["y"], false)]).timeout_batches ∧
    (processBatchRun (fun l => (.ok l : Except String (List String)))
        ["x"] true {}).2.total_batches = ({} : BatchMetrics).total_batches + 1 ∧
    (processBatchRun (fun _ => (.error "boom" : Except String (List String)))
        ["y"] false {}).2 = ({} : BatchMetrics) :=
  ⟨⟨by decide, rfl, rfl⟩,
    (metrics_conservation (fun l => (.ok l : Except String (List String)))).1
      [(["x"], true), (["y"], false)],
    ((metrics_conservation (fun l => (.ok l : Except String (List String)))).2.1
      ["x"] true {} ["x"] (by decide) rfl).1,
    (metrics_conservation (fun _ => (.error "boom" : Except String (List String)))).2.2
      ["y"] false {} "boom" rfl⟩

theorem timeoutRemaining_eq {α : Type} (timeoutMs : Nat) (s : LoopState α) :
    timeoutRemaining timeoutMs s = timeoutMs - (s.now - s.lastBatchTime) := by
  unfold timeoutRemaining
  exact Nat.zero_max _

/-- Single-step preservation of the size bounds. -/
theorem loopStep_size {α : Type} (maxB timeoutMs : Nat) (hmax : 1 ≤ maxB)
    (s : LoopState α) (e : LoopEvent α)
    (hd : ∀ d ∈ s.dispatches, 1 ≤ d.batch.length ∧ d.batch.length ≤ maxB)
    (hb : s.batch.length < maxB) :
    (∀ d ∈ (loopStep maxB timeoutMs s e).dispatches,
      1 ≤ d.batch.length ∧ d.batch.length ≤ maxB) ∧
    (loopStep maxB timeoutMs s e).batch.length < maxB := by
  cases e with
  | arrive r t =>
    simp only [loopStep]
    by_cases hfull : maxB ≤ (s.batch ++ [r]).length
    · rw [if_pos hfull]
      refine ⟨?_, by simpa using hmax⟩
      intro d hd2
      rcases List.mem_append.1 hd2 with h | h
      · exact hd d h
      · rw [List.mem_singleton] at h
        subst h
        simp only [List.length_append, List.length_cons, List.length_nil]
        omega
    · rw [if_neg hfull]
      simp only [List.length_append, List.length_cons, List.length_nil] at hfull ⊢
      exact ⟨hd, by omega⟩
  | expire =>
    simp only [loopStep]
    by_cases hemp : s.batch.isEmpty
    · rw [if_pos hemp]
      exact ⟨hd, hb⟩
    · rw [if_neg hemp]
      refine ⟨?_, by simpa using hmax⟩
      intro d hd2
      rcases List.mem_append.1 hd2 with h | h
      · exact hd d h
      · rw [List.mem_singleton] at h
        subst h
        have : s.batch ≠ [] := by simpa [List.isEmpty_iff] using hemp
        have : 0 < s.batch.length := List.length_pos.2 this
        simp only
        omega

/-- Size bounds hold over any run. -/
theorem runLoop_size {α : Type} (maxB timeoutMs : Nat) (hmax : 1 ≤ maxB) :
    ∀ (evs : List (LoopEvent α)) (s : LoopState α),
      (∀ d ∈ s.dispatches, 1 ≤ d.batch.length ∧ d.batch.length ≤ maxB) →
      s.batch.length < maxB →
      (∀ d ∈ (runLoop maxB timeoutMs s evs).dispatches,
        1 ≤ d.batch.length ∧ d.batch.length ≤ maxB) ∧
      (runLoop maxB timeoutMs s evs).batch.length < maxB
  | [], _, hd, hb => ⟨hd, hb⟩
  | e :: rest, s, hd, hb => by
    obtain ⟨hd', hb'⟩ := loopStep_size maxB timeoutMs hmax s e hd hb
    exact runLoop_size maxB timeoutMs hmax rest (loopStep maxB timeoutMs s e) hd' hb'

/-- C3: with max_batch_size at least one, every batch the dispatch loop
hands to _process_batch has between one and max_batch_size requests, and
the loop never carries a full batch across an iteration (reaching
max_batch_size triggers dispatch within the same iteration). -/
theorem batch_size_bounds {α : Type} (maxB timeoutMs t0 : Nat) (evs : List (LoopEvent α))
    (hmax : 1 ≤ maxB) :
    (∀ d ∈ (runLoop maxB timeoutMs (initLoop t0) evs).dispatches,
      1 ≤ d.batch.length ∧ d.batch.length ≤ maxB) ∧
    (runLoop maxB timeoutMs (initLoop t0) evs).batch.length < maxB := by
  apply runLoop_size maxB timeoutMs hmax evs (initLoop t0)
  · intro d hd
    cases hd
  · simpa [initLoop] using hmax

/-- Witness for C3 at a concrete instance: a size-two trigger followed by
a timeout trigger. -/
theorem batch_size_bounds_witness :
    1 ≤ 2 ∧
    ((∀ d ∈ (runLoop 2 50 (initLoop 0)
        [LoopEvent.arrive "a" 1, .arrive "b" 2, .arrive "c" 3, .expire]).dispatches,
      1 ≤ d.batch.length ∧ d.batch.length ≤ 2) ∧
    (runLoop 2 50 (initLoop 0)
        [LoopEvent.arrive "a" 1, .arrive "b" 2, .arrive "c" 3, .expire]).batch.length < 2) :=
  ⟨by decide,
    batch_size_bounds 2 50 0 [LoopEvent.arrive "a" 1, .arrive "b" 2, .arrive "c" 3, .expire]
      (by decide)⟩

/-- Over any timing-valid run, every TIMEOUT dispatch happens exactly at
its anchor (the last_batch_time at dispatch) plus the timeout. -/
theorem runLoop_timeout_dispatch {α : Type} (maxB timeoutMs : Nat) :
    ∀ (evs : List (LoopEvent α)) (s : LoopState α),
      validFrom maxB timeoutMs s evs = true →
      s.lastBatchTime ≤ s.now →
      s.now - s.lastBatchTime ≤ timeoutMs →
      (∀ d ∈ s.dispatches, d.isTimeout = true → d.time = d.anchor + timeoutMs) →
      ∀ d ∈ (runLoop maxB timeoutMs s evs).dispatches,
        d.isTimeout = true → d.time = d.anchor + timeoutMs
  | [], _, _, _, _, hd => hd
  | e :: rest, s, hv, h1, h2, hd => by
    have hrun : runLoop maxB timeoutMs s (e :: rest) =
        runLoop maxB timeoutMs (loopStep maxB timeoutMs s e) rest := rfl
    rw [hrun]
    cases e with
    | arrive r t =>
      simp only [validFrom, Bool.and_eq_true, decide_eq_true_eq] at hv
      obtain ⟨⟨hg1, hg2⟩, hvrest⟩ := hv
      rw [timeoutRemaining_eq] at hg2
      by_cases hfull : maxB ≤ (s.batch ++ [r]).length
      · refine runLoop_timeout_dispatch maxB timeoutMs rest _ hvrest ?_ ?_ ?_ <;>
          simp only [loopStep, if_pos hfull]
        · exact le_refl t
        · simp
        · intro d hdm ht
          rcases List.mem_append.1 hdm with h | h
          · exact hd d h ht
          · rw [List.mem_singleton] at h
            subst h
            cases ht
      · refine runLoop_timeout_dispatch maxB timeoutMs rest _ hvrest ?_ ?_ ?_ <;>
          simp only [loopStep, if_neg hfull]
        · exact le_trans h1 hg1
        · omega
        · exact hd
    | expire =>
      simp only [validFrom, Bool.and_eq_true, true_and] at hv
      by_cases hemp : s.batch.isEmpty
      · refine runLoop_timeout_dispatch maxB timeoutMs rest _ hv ?_ ?_ ?_ <;>
          simp only [loopStep, if_pos hemp]
        · exact le_refl _
        · simp
        · exact hd
      · refine runLoop_timeout_dispatch maxB timeoutMs rest _ hv ?_ ?_ ?_ <;>
          simp only [loopStep, if_neg hemp]
        · exact le_refl _
        · simp
        · intro d hdm ht
          rcases List.mem_append.1 hdm with h | h
          · exact hd d h ht
          · rw [List.mem_singleton] at h
            subst h
            simp only
            rw [timeoutRemaining_eq]
            omega

/-- Counterexample to C6 as stated: with timeout 50, the loop is reset at
time 0, the batch's first (and only) request arrives at time 40, and the
TIMEOUT dispatch happens at time 50 (anchored at the last reset, time 0),
not at 40 + 50 = 90 as a window anchored at the first request would
require; moreover the wait bound passed to the queue while the batch is
empty is the finite value 50, not an unbounded wait. -/
theorem batch_window_counterexample :
    validFrom 32 50 (initLoop 0) [LoopEvent.arrive "r" 40, .expire] = true ∧
    (runLoop 32 50 (initLoop 0) [LoopEvent.arrive "r" 40, .expire]).dispatches =
      [⟨["r"], true, 50, 0⟩] ∧
    (50 : Nat) ≠ 40 + 50 ∧
    waitBound 50 (initLoop 0 : LoopState String) = some 50 := by
  refine ⟨by decide, by decide, by decide, rfl⟩

/-- C6 amended: the batch window is anchored at last_batch_time, which is
set at loop start and reset after every dispatch and every empty-batch
expiry, not at the first request of the batch; a non-empty batch is
dispatched with trigger TIMEOUT exactly when last_batch_time + timeout_ms
is reached; the wait for the next request always carries the finite
deadline timeout_remaining (at most timeout_ms), also while the batch is
empty; and an arrival that does not fill the batch leaves the anchor
unchanged. -/
theorem batch_window_amended {α : Type} (maxB timeoutMs t0 : Nat)
    (evs : List (LoopEvent α))
    (hvalid : validFrom maxB timeoutMs (initLoop t0) evs = true) :
    (∀ d ∈ (runLoop maxB timeoutMs (initLoop t0) evs).dispatches,
      d.isTimeout = true → d.time = d.anchor + timeoutMs) ∧
    (∀ s : LoopState α, waitBound timeoutMs s = some (timeoutRemaining timeoutMs s) ∧
      timeoutRemaining timeoutMs s ≤ timeoutMs) ∧
    (∀ (s : LoopState α) (r : α) (t : Nat), ¬maxB ≤ (s.batch ++ [r]).length →
      (loopStep maxB timeoutMs s (.arrive r t)).lastBatchTime = s.lastBatchTime) := by
  refine ⟨?_, ?_, ?_⟩
  · apply runLoop_timeout_dispatch maxB timeoutMs evs (initLoop t0) hvalid
    · exact le_refl t0
    · simp [initLoop]
    · intro d hd
      cases hd
  · intro s
    refine ⟨rfl, ?_⟩
    rw [timeoutRemaining_eq]
    omega
  · intro s r t hfull
    simp only [loopStep, if_neg hfull]

/-- Witness for C6 amended at a concrete valid trace. -/
theorem batch_window_amended_witness :
    validFrom 2 50 (initLoop 0) [LoopEvent.arrive "a" 10, .expire] = true ∧
    ((∀ d ∈ (runLoop 2 50 (initLoop 0) [LoopEvent.arrive "a" 10, .expire]).dispatches,
        d.isTimeout = true → d.time = d.anchor + 50) ∧
      (∀ s : LoopState String, waitBound 50 s = some (timeoutRemaining 50 s) ∧
        timeoutRemaining 50 s ≤ 50) ∧
      (∀ (s : LoopState String) (r : String) (t : Nat), ¬2 ≤ (s.batch ++ [r]).length →
        (loopStep 2 50 s (.arrive r t)).lastBatchTime = s.lastBatchTime)) :=
  ⟨by decide, batch_window_amended 2 50 0 [LoopEvent.arrive "a" 10, .expire] (by decide)⟩

/-- Counterexample to C8 as stated: submit one request, call stop, let the
loop run twice more; the pending request's completion slot receives no
write at all (in particular it is never completed with ShuttingDown, the
request simply stays queued), and a submit after stop still enqueues
instead of failing. -/
theorem stop_counterexample :
    (runCo 32 (fun l => (.ok l : Except String (List String)))
        initCo [.submit "a", .stop, .iter, .iter]).writes = [] ∧
    (runCo 32 (fun l => (.ok l : Except String (List String)))
        initCo [.submit "a", .stop, .iter, .iter]).queue = [("a", 0)] ∧
    (runCo 32 (fun l => (.ok l : Except String (List String)))
        initCo [.submit "a", .stop, .iter, .iter]).running = false ∧
    (runCo 32 (fun l => (.ok l : Except String (List String)))
        initCo [.submit "a", .stop, .iter, .iter, .submit "b"]).queue =
      [("a", 0), ("b", 1)] := by
  refine ⟨by decide, by decide, by decide, by decide⟩

/-- C8 amended: stop only clears the running flag; the state is terminal
for the dispatch loop in the sense that from any stopped state no further
loop iteration dispatches or writes any completion slot and the current
batch stays as it is, so requests pending at stop are never completed by
the processor (with ShuttingDown or anything else); subsequent submits are
not rejected: each still enqueues its request, growing the queue by the
number of submits, and their callers can only fail by the submit timeout
of process itself. -/
theorem stop_amended {α ρ : Type} (maxB : Nat) (fn : List α → Except String (List ρ)) :
    (∀ s : CoState α ρ, (coStep maxB fn s .stop).running = false) ∧
    (∀ (evs : List (CoEvent α)) (s : CoState α ρ), s.running = false →
      (runCo maxB fn s evs).running = false ∧
      (runCo maxB fn s evs).writes = s.writes ∧
      (runCo maxB fn s evs).batch = s.batch ∧
      (runCo maxB fn s evs).queue.length = s.queue.length + countSubmits evs) := by
  constructor
  · intro s
    rfl
  · intro evs
    induction evs with
    | nil =>
      intro s hs
      exact ⟨hs, rfl, rfl, by simp [countSubmits, runCo]⟩
    | cons e rest ih =>
      intro s hs
      have hrun : runCo maxB fn s (e :: rest) =
          runCo maxB fn (coStep maxB fn s e) rest := rfl
      cases e with
      | submit r =>
        have hstep : coStep maxB fn s (.submit r) =
            { s with queue := s.queue ++ [(r, s.nextSlot)], nextSlot := s.nextSlot + 1 } :=
          rfl
        obtain ⟨ih1, ih2, ih3, ih4⟩ := ih (coStep maxB fn s (.submit r)) (by rw [hstep]; exact hs)
        rw [hrun]
        refine ⟨ih1, by rw [ih2, hstep], by rw [ih3, hstep], ?_⟩
        rw [ih4, hstep]
        simp only [List.length_append, List.length_cons, List.length_nil]
        have : countSubmits (CoEvent.submit r :: rest) = countSubmits rest + 1 := by
          simp [countSubmits, List.countP_cons]
        rw [this]
        omega
      | iter =>
        have hstep : coStep maxB fn s .iter = s := by
          simp only [coStep]
          rw [if_neg (by rw [hs]; exact Bool.false_ne_true)]
        obtain ⟨ih1, ih2, ih3, ih4⟩ := ih (coStep maxB fn s .iter) (by rw [hstep]; exact hs)
        rw [hrun]
        refine ⟨ih1, by rw [ih2, hstep], by rw [ih3, hstep], ?_⟩
        rw [ih4, hstep]
        have : countSubmits (CoEvent.iter :: rest) = countSubmits rest := by
          simp [countSubmits, List.countP_cons]
        rw [this]
      | stop =>
        have hstep : coStep maxB fn s .stop = { s with running := false } := rfl
        obtain ⟨ih1, ih2, ih3, ih4⟩ := ih (coStep maxB fn s .stop) rfl
        rw [hrun]
        refine ⟨ih1, by rw [ih2, hstep], by rw [ih3, hstep], ?_⟩
        rw [ih4, hstep]
        have : countSubmits (CoEvent.stop :: rest) = countSubmits rest := by
          simp [countSubmits, List.countP_cons]
        rw [this]

/-- Witness for C8 amended at a concrete stopped state. -/
theorem stop_amended_witness :
    (runCo 32 (fun l => (.ok l : Except String (List String)))
        { running := false, queue := [("a", 0)], batch := [], writes := [], nextSlot := 1 }
        [.iter, .submit "b", .iter]).running = false ∧
    (runCo 32 (fun l => (.ok l : Except String (List String)))
        { running := false, queue := [("a", 0)], batch := [], writes := [], nextSlot := 1 }
        [.iter, .submit "b", .iter]).writes = [] ∧
    (runCo 32 (fun l => (.ok l : Except String (List String)))
        { running := false, queue := [("a", 0)], batch := [], writes := [], nextSlot := 1 }
        [.iter, .submit "b", .iter]).batch = [] ∧
    (runCo 32 (fun l => (.ok l : Except String (List String)))
        { running := false, queue := [("a", 0)], batch := [], writes := [], nextSlot := 1 }
        [.iter, .submit "b", .iter]).queue.length = 1 + 1 := by
  have h := (stop_amended 32 (fun l => (.ok l : Except String (List String)))).2
    [.iter, .submit "b", .iter]
    { running := false, queue := [("a", 0)], batch := [], writes := [], nextSlot := 1 } rfl
  exact ⟨h.1, h.2.1, h.2.2.1, by rw [h.2.2.2]; rfl⟩

end DistInf
